import Mathlib

/-!
# Verification of the nova POMDP Perseus planner (CPU backend)

Shallow embedding of `src/pomdp/algorithms/pomdp_perseus_cpu.cpp` and
`src/pomdp/pomdp_expand_cpu.cpp` (namespace `nova`).

Modelling conventions:
* C `float` arithmetic is modelled exactly over `ℚ`.  `FLT_MIN` (the smallest
  positive normal single-precision float, used by the source as the initial
  value of every max-reduction) is the rational `2^-126`.
* Flat C arrays are `List ℚ` / `List ℤ` / `List ℕ`; reads out of the valid
  range return a default (`0`), mirroring the fact that theorems only ever
  evaluate reads the C program performs on defined memory.
* Uninitialized C values are explicit parameters: the uninitialized local
  `bestj` of `pomdp_perseus_update_compute_best_alpha_cpu` (never assigned when
  no candidate score exceeds `FLT_MIN`) enters as `bj0`, and the uninitialized
  output buffer `alphaPrime` of `pomdp_perseus_update_step_cpu` enters as `aj`.
* `rand()` is modelled by a supplied natural number in `[0, RAND_MAX]`.
-/

namespace Nova

set_option maxRecDepth 40000

attribute [local semireducible] Rat.add Rat.mul Rat.sub Rat.inv

/-- Status codes from `error_codes.h` as used by the Perseus / expand code
(`NOVA_SUCCESS`, `NOVA_CONVERGED`, `NOVA_ERROR_INVALID_DATA`,
`NOVA_ERROR_OUT_OF_MEMORY`); `degenerateBelief` is the `DegenerateBelief`
code of the spec's error taxonomy (section 7). -/
inductive NovaResult where
  | success
  | converged
  | invalidData
  | outOfMemory
  | degenerateBelief
  deriving DecidableEq, Repr

/-- `FLT_MIN`: smallest positive normal `float`, the sentinel the source uses
to initialize max-reductions. -/
def fltMin : ℚ := 1 / 2 ^ 126

/-- `RAND_MAX` of glibc. -/
def RAND_MAX : ℕ := 2147483647

/-- Array read with default, modelling `l[i]` on a C array. -/
def getE {α : Type} (d : α) : List α → ℕ → α
  | [], _ => d
  | x :: _, 0 => x
  | _ :: l, i + 1 => getE d l i

/-- Read of a `float` array. -/
def getQ (l : List ℚ) (i : ℕ) : ℚ := getE 0 l i

/-- Read of an `int` array. -/
def getI (l : List ℤ) (i : ℕ) : ℤ := getE 0 l i

/-- Read of an `unsigned int` array. -/
def getN (l : List ℕ) (i : ℕ) : ℕ := getE 0 l i

/-- `memcpy(&l[off], v, |v|)`: overwrite `|v|` entries of `l` starting at
`off`.  When the write starts past the end of `l` the model appends instead
(the C program would write past the allocation there; this arises only on the
`OutOfMemory` path). -/
def listWrite {α : Type} : List α → ℕ → List α → List α
  | l, _, [] => l
  | [], _, v => v
  | _ :: l, 0, y :: v => y :: listWrite l 0 v
  | x :: l, off + 1, v => x :: listWrite l off v

/-- Row `i` of a flat `rowLen`-column matrix. -/
def rowSlice {α : Type} (rowLen : ℕ) (l : List α) (i : ℕ) : List α :=
  (l.drop (i * rowLen)).take rowLen

/-- The max-reduction pattern of the source: running maximum initialized with
a sentinel `c` and running argmax initialized with `i0` (the caller's value of
the out-parameter), updated on strict improvement only. -/
def maxFold (f : ℕ → ℚ) (k : ℕ) (c : ℚ) (i0 : ℕ) : ℚ × ℕ :=
  (List.range k).foldl (fun st j => if st.1 < f j then (f j, j) else st) (c, i0)

/-- The same reduction with a `-∞` sentinel: the first candidate is always
taken.  `none` when there is no candidate. -/
def maxFoldInf (f : ℕ → ℚ) (k : ℕ) : Option (ℚ × ℕ) :=
  (List.range k).foldl (fun st j =>
    match st with
    | none => some (f j, j)
    | some s => if s.1 < f j then some (f j, j) else some s) none

/-- Valid sparse-belief positions of belief row `bIndex`:
`for (j = 0; j < rz; j++) { if (Z[bIndex*rz+j] < 0) break; ... }`. -/
def validJs (rz : ℕ) (Z : List ℤ) (bIndex : ℕ) : List ℕ :=
  (List.range rz).takeWhile (fun j => decide (0 ≤ getI Z (bIndex * rz + j)))

/-- Valid sparse-successor positions of `(s, a)`:
`for (l = 0; l < ns; l++) { if (S[s*m*ns+a*ns+l] < 0) break; ... }`. -/
def validLs (ns m : ℕ) (S : List ℤ) (s a : ℕ) : List ℕ :=
  (List.range ns).takeWhile (fun l => decide (0 ≤ getI S (s * m * ns + a * ns + l)))

/-- `pomdp_perseus_compute_b_dot_alpha_cpu`. -/
def computeBDotAlpha (rz : ℕ) (Z : List ℤ) (B : List ℚ) (bIndex : ℕ)
    (alpha : List ℚ) : ℚ :=
  ((validJs rz Z bIndex).map (fun j =>
    getQ B (bIndex * rz + j) * getQ alpha (getI Z (bIndex * rz + j)).toNat)).sum

/-- `pomdp_perseus_compute_Vb_cpu`.  `i0` is the caller's value of the
out-parameter `alphaPrimeIndex`, which the function leaves untouched when no
candidate beats the `FLT_MIN` sentinel (every in-repo caller passes `0`). -/
def computeVb (n rz : ℕ) (Z : List ℤ) (B : List ℚ) (bIndex : ℕ)
    (Gamma : List ℚ) (rGamma i0 : ℕ) : ℚ × ℕ :=
  maxFold (fun i => computeBDotAlpha rz Z B bIndex (Gamma.drop (i * n))) rGamma fltMin i0

/-- The same value-at-belief reduction with a `-∞` sentinel (spec section 4.5:
"An implementation may use `-INF`"). -/
def computeVbInf (n rz : ℕ) (Z : List ℤ) (B : List ℚ) (bIndex : ℕ)
    (Gamma : List ℚ) (rGamma : ℕ) : Option (ℚ × ℕ) :=
  maxFoldInf (fun i => computeBDotAlpha rz Z B bIndex (Gamma.drop (i * n))) rGamma

/-- The inner accumulation `Vtk` of
`pomdp_perseus_update_compute_best_alpha_cpu` (already multiplied by `gamma`). -/
def backupVtk (n ns m z : ℕ) (gamma : ℚ) (S : List ℤ) (T O : List ℚ)
    (Gamma : List ℚ) (j a o s : ℕ) : ℚ :=
  gamma * ((validLs ns m S s a).map (fun l =>
    let sp := (getI S (s * m * ns + a * ns + l)).toNat
    getQ O (a * n * z + sp * z + o) * getQ T (s * m * ns + a * ns + l) *
      getQ Gamma (j * n + sp))).sum

/-- The score of candidate alpha-vector `j` for observation `o` inside
`pomdp_perseus_update_compute_best_alpha_cpu` (the `value` variable). -/
def obsScore (n ns m z rz : ℕ) (gamma : ℚ) (S : List ℤ) (T O : List ℚ)
    (Z : List ℤ) (B : List ℚ) (bIndex : ℕ) (Gamma : List ℚ) (a o j : ℕ) : ℚ :=
  ((validJs rz Z bIndex).map (fun k =>
    let s := (getI Z (bIndex * rz + k)).toNat
    backupVtk n ns m z gamma S T O Gamma j a o s * getQ B (bIndex * rz + k))).sum

/-- `pomdp_perseus_update_compute_best_alpha_cpu`.  `bj0` is the value of the
uninitialized local `bestj` (read when no candidate score beats the `FLT_MIN`
sentinel; it persists across observation iterations once assigned).  Returns
the accumulated `alpha` together with the final `bestj`. -/
def computeBestAlpha (n ns m z rz : ℕ) (gamma : ℚ) (S : List ℤ) (T O : List ℚ)
    (Z : List ℤ) (B : List ℚ) (bIndex : ℕ) (Gamma : List ℚ) (rGamma a bj0 : ℕ)
    (alpha0 : List ℚ) : List ℚ × ℕ :=
  (List.range z).foldl (fun st o =>
    let mf := maxFold (fun j => obsScore n ns m z rz gamma S T O Z B bIndex Gamma a o j)
      rGamma fltMin st.2
    ((List.range n).map (fun s =>
      getQ st.1 s + backupVtk n ns m z gamma S T O Gamma mf.2 a o s), mf.2))
    (alpha0, bj0)

/-- The `-∞`-sentinel variant of `computeBestAlpha` (no uninitialized `bestj`:
the first candidate is always taken; the default `0` is only reached when
`rGamma = 0`). -/
def computeBestAlphaInf (n ns m z rz : ℕ) (gamma : ℚ) (S : List ℤ) (T O : List ℚ)
    (Z : List ℤ) (B : List ℚ) (bIndex : ℕ) (Gamma : List ℚ) (rGamma a : ℕ)
    (alpha0 : List ℚ) : List ℚ :=
  (List.range z).foldl (fun al o =>
    let bestj := ((maxFoldInf
      (fun j => obsScore n ns m z rz gamma S T O Z B bIndex Gamma a o j) rGamma).map
        Prod.snd).getD 0
    (List.range n).map (fun s =>
      getQ al s + backupVtk n ns m z gamma S T O Gamma bestj a o s)) alpha0

/-- `pomdp_perseus_update_step_cpu`.  `bjs a` is the uninitialized `bestj`
inside the `computeBestAlpha` call for action `a`; `aj` is the uninitialized
contents of the freshly allocated `alphaPrime` buffer (returned unchanged, with
`aPrime = 0` from the caller's initialization, when no action's value beats the
`FLT_MIN` sentinel). -/
def updateStep (n ns m z rz : ℕ) (gamma : ℚ) (S : List ℤ) (T O R : List ℚ)
    (Z : List ℤ) (B : List ℚ) (Gamma : List ℚ) (rGamma bIndex : ℕ)
    (bjs : ℕ → ℕ) (aj : List ℚ) : List ℚ × ℕ :=
  let st := (List.range m).foldl (fun st a =>
    let alpha0 := (List.range n).map (fun s => getQ R (s * m + a))
    let alpha := (computeBestAlpha n ns m z rz gamma S T O Z B bIndex Gamma rGamma a
      (bjs a) alpha0).1
    let value := computeBDotAlpha rz Z B bIndex alpha
    if st.2.2 < value then (alpha, a, value) else st) (aj, 0, fltMin)
  (st.1, st.2.1)

/-- The `-∞`-sentinel variant of `updateStep`: `none` when `m = 0`. -/
def updateStepInf (n ns m z rz : ℕ) (gamma : ℚ) (S : List ℤ) (T O R : List ℚ)
    (Z : List ℤ) (B : List ℚ) (Gamma : List ℚ) (rGamma bIndex : ℕ) :
    Option (List ℚ × ℕ) :=
  ((List.range m).foldl (fun st a =>
    let alpha0 := (List.range n).map (fun s => getQ R (s * m + a))
    let alpha := computeBestAlphaInf n ns m z rz gamma S T O Z B bIndex Gamma rGamma a alpha0
    let value := computeBDotAlpha rz Z B bIndex alpha
    match st with
    | none => some (alpha, a, value)
    | some s => if s.2.2 < value then some (alpha, a, value) else some s) none).map
    (fun s => (s.1, s.2.1))

/-- `bTildeIndex = (unsigned int)((float)rand() / (float)RAND_MAX * (float)rTilde)`
in exact arithmetic (`randVal` is the value returned by `rand()`). -/
def sampleBTildeIndex (randVal rTilde : ℕ) : ℕ :=
  Nat.floor ((randVal : ℚ) / (RAND_MAX : ℚ) * (rTilde : ℚ))

/-- The POMDP model struct (`pomdp.h`): dimensions, sparse transition /
observation / reward / belief arrays.  Scratch state is kept separately in
`PerseusState`. -/
structure POMDP where
  n : ℕ
  ns : ℕ
  m : ℕ
  z : ℕ
  r : ℕ
  rz : ℕ
  gamma : ℚ
  horizon : ℕ
  S : List ℤ
  T : List ℚ
  O : List ℚ
  R : List ℚ
  Z : List ℤ
  B : List ℚ
  deriving DecidableEq, Repr

/-- The Perseus scratch state stored inside the `POMDP` struct
(`Gamma`, `GammaPrime`, `pi`, `piPrime`, `rGamma`, `rGammaPrime`, `BTilde`,
`rTilde`, `currentHorizon`).  Heap pointers are `Option` lists (`none` =
`nullptr`). -/
structure PerseusState where
  currentHorizon : ℕ
  Gamma : Option (List ℚ)
  GammaPrime : Option (List ℚ)
  pi : Option (List ℕ)
  piPrime : Option (List ℕ)
  rGamma : ℕ
  rGammaPrime : ℕ
  BTilde : Option (List ℕ)
  rTilde : ℕ
  deriving DecidableEq, Repr

/-- A scratch state whose pointers are all null. -/
def blankState : PerseusState :=
  ⟨0, none, none, none, none, 0, 0, none, 0⟩

/-- `POMDPAlphaVectors` policy output. -/
structure POMDPAlphaVectors where
  n : ℕ
  m : ℕ
  r : ℕ
  Gamma : List ℚ
  pi : List ℕ
  deriving DecidableEq, Repr

/-- `pomdp_perseus_initialize_cpu`: allocate both pools (each `r·n`), copy
`initialGamma` into both, zero both `pi` arrays, set both counts to `0`,
`BTilde = [0..r)`, `rTilde = r`, `currentHorizon = 0`. -/
def perseusInit (p : POMDP) (initialGamma : List ℚ) : NovaResult × PerseusState :=
  (.success,
   { currentHorizon := 0
     Gamma := some (initialGamma.take (p.r * p.n))
     GammaPrime := some (initialGamma.take (p.r * p.n))
     pi := some (List.replicate p.r 0)
     piPrime := some (List.replicate p.r 0)
     rGamma := 0
     rGammaPrime := 0
     BTilde := some (List.range p.r)
     rTilde := p.r })

/-- The source/destination buffers selected by `currentHorizon % 2` inside
`pomdp_perseus_update_cpu` (source = `Gamma`/`rGamma`/`pi` when the horizon is
even). -/
structure UpdIn where
  Gs : List ℚ
  rGs : ℕ
  piS : List ℕ
  Gd : List ℚ
  rGd : ℕ
  piD : List ℕ
  BT : List ℕ
  rT : ℕ
  hor : ℕ

/-- The data written back by `pomdp_perseus_update_cpu`. -/
structure UpdOut where
  res : NovaResult
  Gd : List ℚ
  rGd : ℕ
  piD : List ℕ
  rGs : ℕ
  BT : List ℕ
  rT : ℕ
  hor : ℕ

/-- Unpack a scratch state into the source/destination view of
`pomdp_perseus_update_cpu` at its current horizon parity. -/
def unpackState (σ : PerseusState) : UpdIn :=
  if σ.currentHorizon % 2 = 0 then
    ⟨σ.Gamma.getD [], σ.rGamma, σ.pi.getD [],
     σ.GammaPrime.getD [], σ.rGammaPrime, σ.piPrime.getD [],
     σ.BTilde.getD [], σ.rTilde, σ.currentHorizon⟩
  else
    ⟨σ.GammaPrime.getD [], σ.rGammaPrime, σ.piPrime.getD [],
     σ.Gamma.getD [], σ.rGamma, σ.pi.getD [],
     σ.BTilde.getD [], σ.rTilde, σ.currentHorizon⟩

/-- The `BTilde` recomputation of `pomdp_perseus_update_cpu`: all belief
indices whose value under the destination pool is strictly below their value
under the source pool (both values computed by `pomdp_perseus_compute_Vb_cpu`;
the out-parameter `action` is initialized to `0` and unread). -/
def degradedSet (p : POMDP) (Gs : List ℚ) (rGs : ℕ) (Gd : List ℚ) (rGd : ℕ) : List ℕ :=
  (List.range p.r).filter (fun i =>
    decide ((computeVb p.n p.rz p.Z p.B i Gd rGd 0).1 <
            (computeVb p.n p.rz p.Z p.B i Gs rGs 0).1))

/-- The row `pomdp_perseus_update_cpu` copies into the destination pool
(either the fresh backup vector or the source argmax row). -/
def auxNewRow (p : POMDP) (u : UpdIn) (idx : ℕ) (bjs : ℕ → ℕ) (aj : List ℚ) : List ℚ :=
  let bIndex := getN u.BT idx
  let st := updateStep p.n p.ns p.m p.z p.rz p.gamma p.S p.T p.O p.R p.Z p.B
    u.Gs u.rGs bIndex bjs aj
  let bDotAlpha := computeBDotAlpha p.rz p.Z p.B bIndex st.1
  let vb := computeVb p.n p.rz p.Z p.B bIndex u.Gs u.rGs 0
  if vb.1 ≤ bDotAlpha then st.1.take p.n else rowSlice p.n u.Gs vb.2

/-- The action label `pomdp_perseus_update_cpu` writes beside the new row. -/
def auxNewAct (p : POMDP) (u : UpdIn) (idx : ℕ) (bjs : ℕ → ℕ) (aj : List ℚ) : ℕ :=
  let bIndex := getN u.BT idx
  let st := updateStep p.n p.ns p.m p.z p.rz p.gamma p.S p.T p.O p.R p.Z p.B
    u.Gs u.rGs bIndex bjs aj
  let bDotAlpha := computeBDotAlpha p.rz p.Z p.B bIndex st.1
  let vb := computeVb p.n p.rz p.Z p.B bIndex u.Gs u.rGs 0
  if vb.1 ≤ bDotAlpha then st.2 else getN u.piS vb.2

/-- Body of `pomdp_perseus_update_cpu` on the unpacked buffers.  `idx` is the
sampled `bTildeIndex`; `bjs`/`aj` are the uninitialized values described at
`updateStep`.  Mirrors the source order: backup step, `b·α`, `V_n(b)`, append
of `auxNewRow`/`auxNewAct` (argmax fallback), out-of-memory check, `BTilde`
rebuild, convergence check (`currentHorizon++`, source count reset, `BTilde`
restored to `[0..r)`). -/
def perseusUpdateAux (p : POMDP) (u : UpdIn) (idx : ℕ) (bjs : ℕ → ℕ)
    (aj : List ℚ) : UpdOut :=
  let Gd2 := listWrite u.Gd (u.rGd * p.n) (auxNewRow p u idx bjs aj)
  let piD2 := listWrite u.piD u.rGd [auxNewAct p u idx bjs aj]
  let rGd2 := u.rGd + 1
  if p.r < rGd2 then
    ⟨.outOfMemory, Gd2, rGd2, piD2, u.rGs, u.BT, u.rT, u.hor⟩
  else
    let nb := degradedSet p u.Gs u.rGs Gd2 rGd2
    if nb.length = 0 then
      ⟨.converged, Gd2, rGd2, piD2, 0, List.range p.r, p.r, u.hor + 1⟩
    else
      ⟨.success, Gd2, rGd2, piD2, u.rGs, nb ++ u.BT.drop nb.length, nb.length, u.hor⟩

/-- `pomdp_perseus_update_cpu`: unpack by parity, run the body, write the
results back into the fields of the side selected by parity. -/
def perseusUpdate (p : POMDP) (σ : PerseusState) (idx : ℕ) (bjs : ℕ → ℕ)
    (aj : List ℚ) : NovaResult × PerseusState :=
  let o := perseusUpdateAux p (unpackState σ) idx bjs aj
  (o.res,
    if σ.currentHorizon % 2 = 0 then
      { σ with GammaPrime := some o.Gd, rGammaPrime := o.rGd, piPrime := some o.piD,
               rGamma := o.rGs, BTilde := some o.BT, rTilde := o.rT,
               currentHorizon := o.hor }
    else
      { σ with Gamma := some o.Gd, rGamma := o.rGd, pi := some o.piD,
               rGammaPrime := o.rGs, BTilde := some o.BT, rTilde := o.rT,
               currentHorizon := o.hor })

/-- `pomdp_perseus_uninitialize_cpu`: reset the horizon and counts, free and
null every pointer, return `NOVA_SUCCESS`. -/
def perseusUninit (_σ : PerseusState) : NovaResult × PerseusState :=
  (.success, blankState)

/-- The number of `delete` statements `pomdp_perseus_uninitialize_cpu`
executes on a given state (each `delete` is guarded by a non-null check). -/
def perseusUninitDeletes (σ : PerseusState) : ℕ :=
  (if σ.Gamma.isSome then 1 else 0) + (if σ.GammaPrime.isSome then 1 else 0) +
  (if σ.pi.isSome then 1 else 0) + (if σ.piPrime.isSome then 1 else 0) +
  (if σ.BTilde.isSome then 1 else 0)

/-- `pomdp_perseus_get_policy_cpu`: fails when the policy handle is non-null;
otherwise copies the buffer selected by `currentHorizon % 2` (`Gamma`,
`rGamma`, `pi` when even, the prime side when odd). -/
def perseusGetPolicy (p : POMDP) (σ : PerseusState)
    (policyIn : Option POMDPAlphaVectors) : NovaResult × Option POMDPAlphaVectors :=
  match policyIn with
  | some pol => (.invalidData, some pol)
  | none =>
    if σ.currentHorizon % 2 = 0 then
      (.success, some ⟨p.n, p.m, σ.rGamma,
        (σ.Gamma.getD []).take (σ.rGamma * p.n), (σ.pi.getD []).take σ.rGamma⟩)
    else
      (.success, some ⟨p.n, p.m, σ.rGammaPrime,
        (σ.GammaPrime.getD []).take (σ.rGammaPrime * p.n),
        (σ.piPrime.getD []).take σ.rGammaPrime⟩)

/-- The input validation at the top of `pomdp_perseus_execute_cpu`
(dimensions nonzero, `gamma ∈ [0,1]`, `horizon ≥ 1`, output policy handle
null; the nullness checks on the model arrays and `initialGamma` have no
counterpart here because the model arrays are plain values). -/
def perseusValidArgs (p : POMDP) (policyIn : Option POMDPAlphaVectors) : Bool :=
  p.n ≠ 0 && p.ns ≠ 0 && p.m ≠ 0 && p.z ≠ 0 && p.r ≠ 0 && p.rz ≠ 0 &&
  decide (0 ≤ p.gamma) && decide (p.gamma ≤ 1) && 1 ≤ p.horizon && policyIn.isNone

/-- The nested update loops of `pomdp_perseus_execute_cpu`
(`while (currentHorizon < horizon) { do update while not Converged }`),
flattened: re-testing the horizon after a `Success` update is equivalent since
only a `Converged` update changes `currentHorizon`.  Any other status is
returned immediately (with no cleanup).  `t` counts update calls to index the
streams of `rand()` values and uninitialized locals; `none` = out of fuel. -/
def perseusExecLoop (p : POMDP) (rand : ℕ → ℕ) (bjs : ℕ → ℕ → ℕ)
    (aj : ℕ → List ℚ) : ℕ → ℕ → PerseusState → Option NovaResult × PerseusState
  | 0, _, σ => (none, σ)
  | fuel + 1, t, σ =>
    if σ.currentHorizon < p.horizon then
      let r := perseusUpdate p σ (sampleBTildeIndex (rand t) σ.rTilde) (bjs t) (aj t)
      if r.1 = .converged ∨ r.1 = .success then
        perseusExecLoop p rand bjs aj fuel (t + 1) r.2
      else
        (some r.1, r.2)
    else
      (some .success, σ)

/-- `pomdp_perseus_execute_cpu`: validate, initialize, run the update loops,
then `get_policy` and `uninitialize`.  Each failing step's status is returned
directly (in particular an update error is returned without uninitializing). -/
def perseusExecute (p : POMDP) (initialGamma : List ℚ)
    (policyIn : Option POMDPAlphaVectors) (σin : PerseusState)
    (rand : ℕ → ℕ) (bjs : ℕ → ℕ → ℕ) (aj : ℕ → List ℚ) (fuel : ℕ) :
    Option NovaResult × PerseusState × Option POMDPAlphaVectors :=
  if perseusValidArgs p policyIn then
    let σ1 := (perseusInit p initialGamma).2
    match perseusExecLoop p rand bjs aj fuel 0 σ1 with
    | (none, σ2) => (none, σ2, policyIn)
    | (some res, σ2) =>
      if res = .success then
        let gp := perseusGetPolicy p σ2 policyIn
        if gp.1 = .success then
          let un := perseusUninit σ2
          if un.1 = .success then (some .success, un.2, gp.2)
          else (some un.1, un.2, gp.2)
        else (some gp.1, σ2, gp.2)
      else (some res, σ2, policyIn)
  else (some .invalidData, σin, policyIn)

/-- `pomdp_expand_belief_update_cpu`, accumulation phase: the value of `bp[sp]`
after the transition loop (`bp[sp] += T[s*m*ns+a*ns+i] * b[s]` over all `s` and
valid `i` with `S[s*m*ns+a*ns+i] == sp`).  Writes the C code would perform at
`sp ≥ n` (out of the `bp` allocation) do not occur for models whose `S` entries
are in range. -/
def beliefUpdateAccum (p : POMDP) (b : List ℚ) (a sp : ℕ) : ℚ :=
  ((List.range p.n).map (fun s =>
    ((validLs p.ns p.m p.S s a).map (fun i =>
      if (getI p.S (s * p.m * p.ns + a * p.ns + i)).toNat = sp then
        getQ p.T (s * p.m * p.ns + a * p.ns + i) * getQ b s
      else 0)).sum)).sum

/-- `pomdp_expand_belief_update_cpu`: multiply by `O[a*n*z + sp*z + o]`,
normalize by the total, and return `NOVA_SUCCESS` unconditionally (the source
performs the division even when the normalizing constant is zero; over `ℚ`,
division by zero yields `0`). -/
def beliefUpdate (p : POMDP) (b : List ℚ) (a o : ℕ) : NovaResult × List ℚ :=
  let bp := (List.range p.n).map (fun sp =>
    beliefUpdateAccum p b a sp * getQ p.O (a * p.n * p.z + sp * p.z + o))
  let normalizingConstant := bp.sum
  (.success, bp.map (fun x => x / normalizingConstant))

/-- `pomdp_expand_probability_observation`: `Pr(o | b, a)`. -/
def probabilityObservation (p : POMDP) (b : List ℚ) (a o : ℕ) : ℚ :=
  ((List.range p.n).map (fun s =>
    ((validLs p.ns p.m p.S s a).map (fun i =>
      let sp := (getI p.S (s * p.m * p.ns + a * p.ns + i)).toNat
      getQ p.T (s * p.m * p.ns + a * p.ns + i) *
        getQ p.O (a * p.n * p.z + sp * p.z + o))).sum * getQ b s)).sum

/-! ## Concrete example models

`exM`: a 2-state, 2-action POMDP (self-loop transitions, one observation,
two point-mass beliefs) satisfying the input contract of
`pomdp_perseus_execute_cpu`.  Rewards are chosen so that at horizon 1 the
backup of belief 1 produces a vector that degrades belief 0, leaving
`BTilde = {0}`; sampling with `rand() = RAND_MAX` then reads the stale entry
`BTilde[1] = 1` and keeps re-improving the already-improved belief 1. -/

def exM : POMDP :=
  { n := 2, ns := 1, m := 2, z := 1, r := 2, rz := 1
    gamma := 1, horizon := 3
    S := [0, 0, 1, 1]
    T := [1, 1, 1, 1]
    O := [1, 1, 1, 1]
    R := [2, -1, 1, 3]
    Z := [0, 1]
    B := [1, 1] }

def exG0 : List ℚ := [0, 0, 0, 0]

/-- `rand()` values for the run on `exM`: pick belief 0, then belief 1, then
twice the boundary value `RAND_MAX` (whose sampled index equals `rTilde`). -/
def exRand : ℕ → ℕ :=
  fun t => if t = 0 then 0 else if t = 1 then 1073741824 else RAND_MAX

/-- The run on `exM`: state after `k` updates, each driven by `exRand`
(uninitialized locals instantiated with `0` / `[0, 0]`; on this run the
results do not depend on them). -/
def exStep : ℕ → PerseusState
  | 0 => (perseusInit exM exG0).2
  | k + 1 =>
    (perseusUpdate exM (exStep k)
      (sampleBTildeIndex (exRand k) (exStep k).rTilde) (fun _ => 0) [0, 0]).2

/-- Status of the `(k+1)`-st update of the run on `exM`. -/
def exRes (k : ℕ) : NovaResult :=
  (perseusUpdate exM (exStep k)
    (sampleBTildeIndex (exRand k) (exStep k).rTilde) (fun _ => 0) [0, 0]).1

/-- The destination pool count of the next `pomdp_perseus_update_cpu` call on
`σ` (the side opposite to the parity of `currentHorizon`). -/
def perseusDestCount (σ : PerseusState) : ℕ :=
  if σ.currentHorizon % 2 = 0 then σ.rGammaPrime else σ.rGamma

/-! ## Model and two-update run for claim C1

`exC1M` has a single state, action, observation and belief, reward `-5` and
`gamma = 1/2`; `initialGamma = [-7]`.  Update 1 (source pool empty) appends the
stale row `[-7]` and converges; at horizon 1 the source pool is `{[-7]}` with
`b·α = -7 < FLT_MIN`, and the backup's value `-8.5` never beats the `FLT_MIN`
sentinel, so the backup returns the uninitialized buffer (instantiated `[0]`). -/

def exC1M : POMDP :=
  { n := 1, ns := 1, m := 1, z := 1, r := 1, rz := 1
    gamma := 1 / 2, horizon := 2
    S := [0], T := [1], O := [1], R := [-5], Z := [0], B := [1] }

def exC1G0 : List ℚ := [-7]

def exC1Step : ℕ → PerseusState
  | 0 => (perseusInit exC1M exC1G0).2
  | k + 1 => (perseusUpdate exC1M (exC1Step k) 0 (fun _ => 0) [0]).2

/-- Claim C1 as stated: writing `α*, a*` for the backup kernel's result,
`bDotAlpha = b·α*`, and `(Vnb, argmax)` for the true maximum of `b·α` over the
source pool with smallest-index tie-break (the `-∞`-sentinel reduction), the
update appends `α*`/`a*` to the destination pool if `bDotAlpha ≥ Vnb` and the
source argmax vector with its paired `pi` entry otherwise, and the destination
count grows by one. -/
def c1ClaimAt (p : POMDP) (σ : PerseusState) (idx : ℕ) (bjs : ℕ → ℕ)
    (aj : List ℚ) : Prop :=
  let u := unpackState σ
  let bIndex := getN u.BT idx
  let st := updateStep p.n p.ns p.m p.z p.rz p.gamma p.S p.T p.O p.R p.Z p.B
    u.Gs u.rGs bIndex bjs aj
  let bDotAlpha := computeBDotAlpha p.rz p.Z p.B bIndex st.1
  let spec := (computeVbInf p.n p.rz p.Z p.B bIndex u.Gs u.rGs).getD (fltMin, 0)
  let expectRow := if spec.1 ≤ bDotAlpha then st.1.take p.n else rowSlice p.n u.Gs spec.2
  let expectAct := if spec.1 ≤ bDotAlpha then st.2 else getN u.piS spec.2
  let σ2 := (perseusUpdate p σ idx bjs aj).2
  let dG := if σ.currentHorizon % 2 = 0 then σ2.GammaPrime.getD [] else σ2.Gamma.getD []
  let dPi := if σ.currentHorizon % 2 = 0 then σ2.piPrime.getD [] else σ2.pi.getD []
  let dCnt := if σ.currentHorizon % 2 = 0 then σ2.rGammaPrime else σ2.rGamma
  rowSlice p.n dG u.rGd = expectRow ∧ getN dPi u.rGd = expectAct ∧ dCnt = u.rGd + 1

/-- Degenerate-belief example for claim C5: a single-state POMDP with two
observations where observation 1 has probability 0. -/
def exDegM : POMDP :=
  { n := 1, ns := 1, m := 1, z := 2, r := 1, rz := 1
    gamma := 1, horizon := 1
    S := [0], T := [1], O := [1, 0], R := [0], Z := [0], B := [1] }

/-- `exC7M`: a one-state model for the C7 witness. -/
def exC7M : POMDP :=
  { n := 1, ns := 1, m := 1, z := 1, r := 1, rz := 1
    gamma := 1, horizon := 1
    S := [0], T := [1], O := [1], R := [0], Z := [0], B := [1] }

/-! ## Fold-step helpers for the sentinel-equivalence analysis (claim C8)

`baStepF`/`baStepI` are the per-observation steps of `computeBestAlpha` and
`computeBestAlphaInf`; `usStepF`/`usStepI` the per-action steps of
`updateStep` and `updateStepInf` (definitionally equal to the inline folds). -/

def baStepF (n ns m z rz : ℕ) (gamma : ℚ) (S : List ℤ) (T O : List ℚ)
    (Z : List ℤ) (B : List ℚ) (bIndex : ℕ) (Gamma : List ℚ) (rGamma a : ℕ)
    (st : List ℚ × ℕ) (o : ℕ) : List ℚ × ℕ :=
  let mf := maxFold (fun j => obsScore n ns m z rz gamma S T O Z B bIndex Gamma a o j)
    rGamma fltMin st.2
  ((List.range n).map (fun s =>
    getQ st.1 s + backupVtk n ns m z gamma S T O Gamma mf.2 a o s), mf.2)

def baStepI (n ns m z rz : ℕ) (gamma : ℚ) (S : List ℤ) (T O : List ℚ)
    (Z : List ℤ) (B : List ℚ) (bIndex : ℕ) (Gamma : List ℚ) (rGamma a : ℕ)
    (al : List ℚ) (o : ℕ) : List ℚ :=
  let bestj := ((maxFoldInf
    (fun j => obsScore n ns m z rz gamma S T O Z B bIndex Gamma a o j) rGamma).map
      Prod.snd).getD 0
  (List.range n).map (fun s =>
    getQ al s + backupVtk n ns m z gamma S T O Gamma bestj a o s)

def usStepF (n ns m z rz : ℕ) (gamma : ℚ) (S : List ℤ) (T O R : List ℚ)
    (Z : List ℤ) (B : List ℚ) (Gamma : List ℚ) (rGamma bIndex : ℕ)
    (bjs : ℕ → ℕ) (st : List ℚ × ℕ × ℚ) (a : ℕ) : List ℚ × ℕ × ℚ :=
  let alpha0 := (List.range n).map (fun s => getQ R (s * m + a))
  let alpha := (computeBestAlpha n ns m z rz gamma S T O Z B bIndex Gamma rGamma a
    (bjs a) alpha0).1
  let value := computeBDotAlpha rz Z B bIndex alpha
  if st.2.2 < value then (alpha, a, value) else st

def usStepI (n ns m z rz : ℕ) (gamma : ℚ) (S : List ℤ) (T O R : List ℚ)
    (Z : List ℤ) (B : List ℚ) (Gamma : List ℚ) (rGamma bIndex : ℕ)
    (st : Option (List ℚ × ℕ × ℚ)) (a : ℕ) : Option (List ℚ × ℕ × ℚ) :=
  let alpha0 := (List.range n).map (fun s => getQ R (s * m + a))
  let alpha := computeBestAlphaInf n ns m z rz gamma S T O Z B bIndex Gamma rGamma a alpha0
  let value := computeBDotAlpha rz Z B bIndex alpha
  match st with
  | none => some (alpha, a, value)
  | some s => if s.2.2 < value then some (alpha, a, value) else some s

/-- The value `b·α_a` of the backup candidate for action `a` (computed with the
`-∞`-sentinel kernel, hence independent of the uninitialized locals). -/
def actionValueInf (n ns m z rz : ℕ) (gamma : ℚ) (S : List ℤ) (T O R : List ℚ)
    (Z : List ℤ) (B : List ℚ) (bIndex : ℕ) (Gamma : List ℚ) (rGamma a : ℕ) : ℚ :=
  computeBDotAlpha rz Z B bIndex
    (computeBestAlphaInf n ns m z rz gamma S T O Z B bIndex Gamma rGamma a
      ((List.range n).map (fun s => getQ R (s * m + a))))

/-- Relation between the running states of the two action folds: either no
candidate has been seen (`none` / initial state), or both hold the same triple
whose value beats `FLT_MIN`, or the `-∞` fold holds a triple with value below
the sentinel while the `FLT_MIN` fold still holds its initial state. -/
def usRel (aj : List ℚ) (st : List ℚ × ℕ × ℚ) (stI : Option (List ℚ × ℕ × ℚ)) : Prop :=
  (stI = none ∧ st = (aj, 0, fltMin)) ∨
  (∃ s, stI = some s ∧ st = s ∧ fltMin < s.2.2) ∨
  (∃ s, stI = some s ∧ st = (aj, 0, fltMin) ∧ s.2.2 ≤ fltMin)

/-- The valid prefix `BTilde[0..rTilde)` of the `BTilde` array. -/
def btActive (σ : PerseusState) : List ℕ :=
  (σ.BTilde.getD []).take σ.rTilde

/-- The model-validity facts the invariant proofs rely on: positive `n` and
`r`, and all successor / belief-support indices within `[0, n)` (the sparse
indexing contract of spec section 4.1). -/
def ModelOK (p : POMDP) : Prop :=
  0 < p.n ∧ 0 < p.r ∧ (∀ x ∈ p.S, x.toNat < p.n) ∧ (∀ x ∈ p.Z, x.toNat < p.n)

/-- Inductive invariant of the Perseus update on the unpacked buffers. -/
structure PerseusInvAux (p : POMDP) (u : UpdIn) : Prop where
  lenGs : u.Gs.length = p.r * p.n
  lenGd : u.Gd.length = p.r * p.n
  lenPiS : u.piS.length = p.r
  lenPiD : u.piD.length = p.r
  lenBT : u.BT.length = p.r
  rTpos : 1 ≤ u.rT
  srcLe : u.rGs ≤ p.r
  dstLe : u.rGd + u.rT ≤ p.r
  btSpec : (u.BT.take u.rT = List.range p.r ∧ u.rGd = 0) ∨
    u.BT.take u.rT = degradedSet p u.Gs u.rGs u.Gd u.rGd

/-- The invariant on a scratch state. -/
def PerseusInv (p : POMDP) (σ : PerseusState) : Prop :=
  PerseusInvAux p (unpackState σ)

/-- States reachable from `pomdp_perseus_initialize_cpu` through updates whose
sampled index is within `[0, rTilde)` (in-range sampling) and whose scratch
backup buffer has the allocated size `n`. -/
inductive PerseusReachIn (p : POMDP) (g0 : List ℚ) : PerseusState → Prop where
  | init : PerseusReachIn p g0 (perseusInit p g0).2
  | step (σ : PerseusState) (idx : ℕ) (bjs : ℕ → ℕ) (aj : List ℚ) :
      PerseusReachIn p g0 σ → idx < σ.rTilde → aj.length = p.n →
      PerseusReachIn p g0 (perseusUpdate p σ idx bjs aj).2

/-- All five scratch pointers are non-null. -/
def scratchAllocated (σ : PerseusState) : Prop :=
  σ.Gamma.isSome ∧ σ.GammaPrime.isSome ∧ σ.pi.isSome ∧ σ.piPrime.isSome ∧
    σ.BTilde.isSome

/-! ## Lemmas and theorems -/

/-- C1, counterexample: on the initialized (reachable) planner state
`exC1Step 1`, the source pool is `{[-7]}`, the backup result is the
uninitialized buffer `[0]` with `b·α* = 0 ≥ -7 = V_n(b)`, so the claim
predicts that `α* = [0]` is appended; the code compares against the
`FLT_MIN`-clamped `Vnb` instead (`0 ≥ FLT_MIN` is false) and appends the
source vector `[-7]`. -/
theorem perseus_update_acceptance_cex :
    perseusValidArgs exC1M none = true ∧
    ¬ c1ClaimAt exC1M (exC1Step 1) 0 (fun _ => 0) [0] := by
  constructor
  · decide
  · intro h
    exact absurd h.1 (by decide)

/-! ## Counterexample run for claims C2, C3, C4 (the `exM` run defined above) -/

/-- C2, counterexample: `exM` satisfies the execute input contract, and on the
run driven by the `rand()` values `exRand` (update 3 samples
`rand() = RAND_MAX`, whose index `1` equals `rTilde` and reads the stale entry
`BTilde[1]`), the third update stays in horizon 1 with status `Success` and
`rTilde` does not decrease: it is `1` both before and after. -/
theorem perseus_btilde_shrink_cex :
    perseusValidArgs exM none = true ∧
    sampleBTildeIndex (exRand 2) (exStep 2).rTilde = (exStep 2).rTilde ∧
    exRes 2 = .success ∧
    (exStep 2).currentHorizon = 1 ∧ (exStep 3).currentHorizon = 1 ∧
    (exStep 2).rTilde = 1 ∧ (exStep 3).rTilde = 1 := by decide

/-- C3, counterexample: on the same run, the fourth update (again driven by
`rand() = RAND_MAX`) appends a third alpha-vector: it returns `OutOfMemory`
with the destination count `rGamma = 3` exceeding `r = 2` (the source performs
the `memcpy` of row 2 — past the `r·n` allocation — and the increment before
the bound check, so the bound is violated rather than preserved). -/
theorem perseus_pool_bound_cex :
    perseusValidArgs exM none = true ∧
    exRes 3 = .outOfMemory ∧
    (exStep 4).rGamma = 3 ∧ exM.r = 2 := by decide

/-- C4, counterexample: `pomdp_perseus_execute_cpu` on `exM` with the `exRand`
random stream hits the `OutOfMemory` update error and returns it directly: the
scratch state is NOT uninitialized (all five scratch pointers are still
non-null). -/
theorem perseus_execute_cleanup_cex :
    (perseusExecute exM exG0 none blankState exRand (fun _ _ => 0)
      (fun _ => [0, 0]) 10).1 = some .outOfMemory ∧
    ((perseusExecute exM exG0 none blankState exRand (fun _ _ => 0)
      (fun _ => [0, 0]) 10).2.1.Gamma ≠ none ∧
     (perseusExecute exM exG0 none blankState exRand (fun _ _ => 0)
      (fun _ => [0, 0]) 10).2.1.GammaPrime ≠ none ∧
     (perseusExecute exM exG0 none blankState exRand (fun _ _ => 0)
      (fun _ => [0, 0]) 10).2.1.pi ≠ none ∧
     (perseusExecute exM exG0 none blankState exRand (fun _ _ => 0)
      (fun _ => [0, 0]) 10).2.1.piPrime ≠ none ∧
     (perseusExecute exM exG0 none blankState exRand (fun _ _ => 0)
      (fun _ => [0, 0]) 10).2.1.BTilde ≠ none) := by decide

/-- C9: the sampling expression
`(unsigned int)((float)rand() / (float)RAND_MAX * (float)rTilde)` evaluates to
`rTilde` itself when `rand()` returns `RAND_MAX` (a legal return value), so the
sampled index lies outside `[0, rTilde)` and `BTilde[bTildeIndex]` reads past
the valid prefix. -/
theorem perseus_sampling_out_of_range :
    sampleBTildeIndex RAND_MAX 2 = 2 ∧ sampleBTildeIndex RAND_MAX 1 = 1 := by
  decide

/-- C5: on a belief/action/observation whose unnormalized successor mass is
zero (`Pr(o|b,a) = 0`), `pomdp_expand_belief_update_cpu` still returns
`NOVA_SUCCESS` — it never tests the normalizing constant and divides by zero
(over `ℚ` the output collapses to `[0]`; in C it is `0/0 = NaN`) — instead of
the `DegenerateBelief` failure the spec requires. -/
theorem belief_update_degenerate_returns_success :
    probabilityObservation exDegM [1] 0 1 = 0 ∧
    beliefUpdate exDegM [1] 0 1 = (.success, [0]) ∧
    (beliefUpdate exDegM [1] 0 1).1 ≠ .degenerateBelief := by decide

/-! ## Claim C7: belief-update normalization -/

lemma sum_map_range (f : ℕ → ℚ) (n : ℕ) :
    ((List.range n).map f).sum = ∑ i ∈ Finset.range n, f i := by
  induction n with
  | zero => simp
  | succ k ih => simp [List.range_succ, Finset.sum_range_succ, ih]

lemma sum_map_congr {α : Type} (l : List α) (f g : α → ℚ)
    (h : ∀ x ∈ l, f x = g x) : (l.map f).sum = (l.map g).sum := by
  induction l with
  | nil => simp
  | cons x l ih =>
    simp only [List.map_cons, List.sum_cons]
    rw [h x (by simp), ih (fun y hy => h y (by simp [hy]))]

lemma sum_map_mul_c {α : Type} (l : List α) (f : α → ℚ) (c : ℚ) :
    (l.map f).sum * c = (l.map (fun x => f x * c)).sum := by
  induction l with
  | nil => simp
  | cons x l ih => simp [List.map_cons, List.sum_cons, add_mul, ih]

lemma sum_map_div {α : Type} (l : List α) (f : α → ℚ) (c : ℚ) :
    (l.map (fun x => f x / c)).sum = (l.map f).sum / c := by
  induction l with
  | nil => simp
  | cons x l ih => simp [List.map_cons, List.sum_cons, add_div, ih]

lemma finset_sum_list_comm {α β : Type} (F : Finset α) (l : List β) (g : α → β → ℚ) :
    ∑ x ∈ F, (l.map (g x)).sum = (l.map (fun b => ∑ x ∈ F, g x b)).sum := by
  induction l with
  | nil => simp
  | cons b l ih => simp [List.map_cons, List.sum_cons, Finset.sum_add_distrib, ih]

lemma getE_mem_or {α : Type} (d : α) (l : List α) (i : ℕ) :
    getE d l i = d ∨ getE d l i ∈ l := by
  induction l generalizing i with
  | nil => left; rfl
  | cons x l ih =>
    cases i with
    | zero => right; simp [getE]
    | succ j =>
      rcases ih j with h | h
      · left; simpa [getE] using h
      · right; simp [getE]; right; exact h

/-- The successor index read at position `(s, i)` of the sparse row is below
`n` for any model whose `S` entries are below `n`. -/
lemma succ_index_lt (p : POMDP) (hn : 0 < p.n)
    (hS : ∀ x ∈ p.S, x.toNat < p.n) (idx : ℕ) :
    (getI p.S idx).toNat < p.n := by
  rcases getE_mem_or (0 : ℤ) p.S idx with h | h
  · simp only [getI] at *
    rw [h]; simpa using hn
  · exact hS _ h

/-- The normalizing constant computed by `pomdp_expand_belief_update_cpu`
equals `Pr(o | b, a)` as computed by `pomdp_expand_probability_observation`
(exact arithmetic). -/
lemma normalizing_constant_eq (p : POMDP) (b : List ℚ) (a o : ℕ)
    (hn : 0 < p.n) (hS : ∀ x ∈ p.S, x.toNat < p.n) :
    ((List.range p.n).map (fun sp =>
      beliefUpdateAccum p b a sp * getQ p.O (a * p.n * p.z + sp * p.z + o))).sum
      = probabilityObservation p b a o := by
  unfold beliefUpdateAccum probabilityObservation
  rw [sum_map_range, sum_map_range]
  have step1 :
      ∀ sp, ((List.range p.n).map (fun s =>
          ((validLs p.ns p.m p.S s a).map (fun i =>
            if (getI p.S (s * p.m * p.ns + a * p.ns + i)).toNat = sp then
              getQ p.T (s * p.m * p.ns + a * p.ns + i) * getQ b s
            else 0)).sum)).sum
          * getQ p.O (a * p.n * p.z + sp * p.z + o)
        = ∑ s ∈ Finset.range p.n,
            ((validLs p.ns p.m p.S s a).map (fun i =>
              (if (getI p.S (s * p.m * p.ns + a * p.ns + i)).toNat = sp then
                getQ p.T (s * p.m * p.ns + a * p.ns + i) * getQ b s
              else 0) * getQ p.O (a * p.n * p.z + sp * p.z + o))).sum := by
    intro sp
    rw [sum_map_range, Finset.sum_mul]
    refine Finset.sum_congr rfl (fun s _ => ?_)
    rw [sum_map_mul_c]
  calc
    ∑ sp ∈ Finset.range p.n,
        ((List.range p.n).map (fun s =>
          ((validLs p.ns p.m p.S s a).map (fun i =>
            if (getI p.S (s * p.m * p.ns + a * p.ns + i)).toNat = sp then
              getQ p.T (s * p.m * p.ns + a * p.ns + i) * getQ b s
            else 0)).sum)).sum * getQ p.O (a * p.n * p.z + sp * p.z + o)
      = ∑ sp ∈ Finset.range p.n, ∑ s ∈ Finset.range p.n,
          ((validLs p.ns p.m p.S s a).map (fun i =>
            (if (getI p.S (s * p.m * p.ns + a * p.ns + i)).toNat = sp then
              getQ p.T (s * p.m * p.ns + a * p.ns + i) * getQ b s
            else 0) * getQ p.O (a * p.n * p.z + sp * p.z + o))).sum := by
        exact Finset.sum_congr rfl (fun sp _ => step1 sp)
    _ = ∑ s ∈ Finset.range p.n, ∑ sp ∈ Finset.range p.n,
          ((validLs p.ns p.m p.S s a).map (fun i =>
            (if (getI p.S (s * p.m * p.ns + a * p.ns + i)).toNat = sp then
              getQ p.T (s * p.m * p.ns + a * p.ns + i) * getQ b s
            else 0) * getQ p.O (a * p.n * p.z + sp * p.z + o))).sum := by
        exact Finset.sum_comm
    _ = ∑ s ∈ Finset.range p.n,
          ((validLs p.ns p.m p.S s a).map (fun i =>
            let sp := (getI p.S (s * p.m * p.ns + a * p.ns + i)).toNat
            getQ p.T (s * p.m * p.ns + a * p.ns + i) *
              getQ p.O (a * p.n * p.z + sp * p.z + o))).sum * getQ b s := by
        refine Finset.sum_congr rfl (fun s _ => ?_)
        rw [finset_sum_list_comm, sum_map_mul_c]
        refine sum_map_congr _ _ _ (fun i _ => ?_)
        have hsp := succ_index_lt p hn hS (s * p.m * p.ns + a * p.ns + i)
        rw [Finset.sum_congr rfl (fun sp _ => ite_mul (α := ℚ) _ _ _ _)]
        simp only [zero_mul]
        rw [Finset.sum_ite_eq (Finset.range p.n)
          ((getI p.S (s * p.m * p.ns + a * p.ns + i)).toNat)
          (fun sp => getQ p.T (s * p.m * p.ns + a * p.ns + i) * getQ b s *
            getQ p.O (a * p.n * p.z + sp * p.z + o))]
        simp only [Finset.mem_range, hsp, if_true]
        ring

/-- C7: for every belief, action and observation with
`Pr(o|b,a) > 0` (as computed by `pomdp_expand_probability_observation`), the
output of `pomdp_expand_belief_update_cpu` sums to exactly 1 (exact
arithmetic), for every model whose successor indices are within `[0, n)`. -/
theorem belief_update_normalized (p : POMDP) (b : List ℚ) (a o : ℕ)
    (hn : 0 < p.n) (hS : ∀ x ∈ p.S, x.toNat < p.n)
    (hpos : 0 < probabilityObservation p b a o) :
    ((beliefUpdate p b a o).2).sum = 1 := by
  unfold beliefUpdate
  simp only
  rw [show ((List.range p.n).map (fun sp =>
      beliefUpdateAccum p b a sp * getQ p.O (a * p.n * p.z + sp * p.z + o))).map
        (fun x => x / ((List.range p.n).map (fun sp =>
          beliefUpdateAccum p b a sp * getQ p.O (a * p.n * p.z + sp * p.z + o))).sum)
      = ((List.range p.n).map (fun sp =>
          beliefUpdateAccum p b a sp * getQ p.O (a * p.n * p.z + sp * p.z + o))).map
        ((fun y => (fun x => x / ((List.range p.n).map (fun sp =>
          beliefUpdateAccum p b a sp * getQ p.O (a * p.n * p.z + sp * p.z + o))).sum) y))
      from rfl]
  rw [List.map_map]
  have := sum_map_div ((List.range p.n).map (fun sp =>
      beliefUpdateAccum p b a sp * getQ p.O (a * p.n * p.z + sp * p.z + o)))
    (fun x => x)
    ((List.range p.n).map (fun sp =>
      beliefUpdateAccum p b a sp * getQ p.O (a * p.n * p.z + sp * p.z + o))).sum
  simp only [List.map_id'] at this ⊢
  rw [show ((fun y => y / ((List.range p.n).map (fun sp =>
      beliefUpdateAccum p b a sp * getQ p.O (a * p.n * p.z + sp * p.z + o))).sum) ∘
      (fun sp => beliefUpdateAccum p b a sp * getQ p.O (a * p.n * p.z + sp * p.z + o)))
      = fun sp => (beliefUpdateAccum p b a sp *
          getQ p.O (a * p.n * p.z + sp * p.z + o)) / ((List.range p.n).map (fun sp =>
          beliefUpdateAccum p b a sp * getQ p.O (a * p.n * p.z + sp * p.z + o))).sum
      from rfl]
  rw [sum_map_div]
  rw [normalizing_constant_eq p b a o hn hS]
  exact div_self (ne_of_gt hpos)

/-- Witness for C7 at a concrete model, belief, action and observation. -/
theorem belief_update_normalized_witness :
    (0 < exC7M.n ∧ (∀ x ∈ exC7M.S, x.toNat < exC7M.n) ∧
      0 < probabilityObservation exC7M [1] 0 0) ∧
    ((beliefUpdate exC7M [1] 0 0).2).sum = 1 :=
  ⟨⟨by decide, by decide, by decide⟩,
   belief_update_normalized exC7M [1] 0 0 (by decide) (by decide) (by decide)⟩

/-- C10: `pomdp_perseus_uninitialize_cpu` always returns `NOVA_SUCCESS` and
leaves the state with `currentHorizon = rGamma = rGammaPrime = rTilde = 0` and
all five pointers null; each `delete` is guarded by a non-null test, so a
second call deletes nothing and returns `Success` again — the operation is
idempotent. -/
theorem perseus_uninitialize_idempotent :
    ∀ σ : PerseusState,
      (perseusUninit σ).1 = .success ∧
      (perseusUninit σ).2 = blankState ∧
      perseusUninitDeletes (perseusUninit σ).2 = 0 ∧
      perseusUninit (perseusUninit σ).2 = perseusUninit σ := by
  intro σ
  refine ⟨rfl, rfl, rfl, rfl⟩

/-! ## Properties of the max-reductions -/

lemma maxFold_succ (f : ℕ → ℚ) (k : ℕ) (c : ℚ) (i0 : ℕ) :
    maxFold f (k + 1) c i0 =
      (if (maxFold f k c i0).1 < f k then (f k, k) else maxFold f k c i0) := by
  simp [maxFold, List.range_succ]

lemma maxFold_fst_ge (f : ℕ → ℚ) (k : ℕ) (c : ℚ) (i0 : ℕ) :
    c ≤ (maxFold f k c i0).1 := by
  induction k with
  | zero => simp [maxFold]
  | succ k ih =>
    rw [maxFold_succ]
    split_ifs with h
    · exact le_of_lt (lt_of_le_of_lt ih h)
    · exact ih

lemma maxFold_fst_le_succ (f : ℕ → ℚ) (k : ℕ) (c : ℚ) (i0 : ℕ) :
    (maxFold f k c i0).1 ≤ (maxFold f (k + 1) c i0).1 := by
  rw [maxFold_succ]
  split_ifs with h
  · exact le_of_lt h
  · exact le_rfl

lemma maxFold_ge (f : ℕ → ℚ) (k : ℕ) (c : ℚ) (i0 : ℕ) (j : ℕ) (hj : j < k) :
    f j ≤ (maxFold f k c i0).1 := by
  induction k with
  | zero => omega
  | succ k ih =>
    rcases Nat.lt_succ_iff_lt_or_eq.mp hj with h | h
    · exact le_trans (ih h) (maxFold_fst_le_succ f k c i0)
    · subst h
      rw [maxFold_succ]
      split_ifs with h'
      · exact le_rfl
      · exact le_of_not_lt h'

lemma maxFold_of_all_le (f : ℕ → ℚ) (k : ℕ) (c : ℚ) (i0 : ℕ)
    (h : ∀ j < k, f j ≤ c) : maxFold f k c i0 = (c, i0) := by
  induction k with
  | zero => rfl
  | succ k ih =>
    rw [maxFold_succ, ih (fun j hj => h j (Nat.lt_succ_of_lt hj))]
    exact if_neg (not_lt.mpr (h k (Nat.lt_succ_self k)))

lemma maxFold_cases (f : ℕ → ℚ) (k : ℕ) (c : ℚ) (i0 : ℕ) :
    maxFold f k c i0 = (c, i0) ∨
      ((maxFold f k c i0).2 < k ∧ (maxFold f k c i0).1 = f (maxFold f k c i0).2 ∧
        c < (maxFold f k c i0).1) := by
  induction k with
  | zero => left; rfl
  | succ k ih =>
    rw [maxFold_succ]
    rcases ih with h | ⟨h1, h2, h3⟩
    · rw [h]
      split_ifs with hc
      · right; exact ⟨Nat.lt_succ_self k, rfl, hc⟩
      · left; rfl
    · split_ifs with hc
      · right; exact ⟨Nat.lt_succ_self k, rfl, lt_trans h3 hc⟩
      · right; exact ⟨Nat.lt_succ_of_lt h1, h2, h3⟩

lemma maxFold_congr (f g : ℕ → ℚ) (k : ℕ) (c : ℚ) (i0 : ℕ)
    (h : ∀ j < k, f j = g j) : maxFold f k c i0 = maxFold g k c i0 := by
  induction k with
  | zero => rfl
  | succ k ih =>
    rw [maxFold_succ, maxFold_succ, ih (fun j hj => h j (Nat.lt_succ_of_lt hj)),
      h k (Nat.lt_succ_self k)]

lemma maxFoldInf_succ_none (f : ℕ → ℚ) (k : ℕ) (h : maxFoldInf f k = none) :
    maxFoldInf f (k + 1) = some (f k, k) := by
  have e : maxFoldInf f (k + 1) =
      (match maxFoldInf f k with
       | none => some (f k, k)
       | some s => if s.1 < f k then some (f k, k) else some s) := by
    simp [maxFoldInf, List.range_succ]
  rw [e, h]

lemma maxFoldInf_succ_some (f : ℕ → ℚ) (k : ℕ) (s : ℚ × ℕ)
    (h : maxFoldInf f k = some s) :
    maxFoldInf f (k + 1) = if s.1 < f k then some (f k, k) else some s := by
  have e : maxFoldInf f (k + 1) =
      (match maxFoldInf f k with
       | none => some (f k, k)
       | some s => if s.1 < f k then some (f k, k) else some s) := by
    simp [maxFoldInf, List.range_succ]
  rw [e, h]

lemma maxFoldInf_spec (f : ℕ → ℚ) (k : ℕ) :
    (k = 0 ∧ maxFoldInf f k = none) ∨
      (∃ v j, maxFoldInf f k = some (v, j) ∧ j < k ∧ v = f j ∧ ∀ i < k, f i ≤ v) := by
  induction k with
  | zero => left; exact ⟨rfl, rfl⟩
  | succ k ih =>
    right
    rcases ih with ⟨hk, hnone⟩ | ⟨v, j, hsome, hj, hv, hub⟩
    · rw [maxFoldInf_succ_none f k hnone]
      refine ⟨f k, k, rfl, Nat.lt_succ_self k, rfl, ?_⟩
      intro i hi
      subst hk
      have : i = 0 := by omega
      subst this
      exact le_rfl
    · rw [maxFoldInf_succ_some f k _ hsome]
      split_ifs with hc
      · refine ⟨f k, k, rfl, Nat.lt_succ_self k, rfl, ?_⟩
        intro i hi
        rcases Nat.lt_succ_iff_lt_or_eq.mp hi with h | h
        · exact le_of_lt (lt_of_le_of_lt (hub i h) hc)
        · subst h; exact le_rfl
      · refine ⟨v, j, rfl, Nat.lt_succ_of_lt hj, hv, ?_⟩
        intro i hi
        rcases Nat.lt_succ_iff_lt_or_eq.mp hi with h | h
        · exact hub i h
        · subst h; exact le_of_not_lt hc

/-- With at least one candidate strictly above the sentinel `c`, the
`c`-initialized reduction is independent of the initial argmax value and
agrees with the `-∞`-initialized reduction. -/
lemma maxFold_eq_inf (f : ℕ → ℚ) (k : ℕ) (c : ℚ) (h : ∃ j < k, c < f j) :
    ∀ i0 i1 : ℕ, maxFold f k c i0 = maxFold f k c i1 ∧
      maxFoldInf f k = some (maxFold f k c i0) := by
  induction k with
  | zero => rcases h with ⟨j, hj, _⟩; omega
  | succ k ih =>
    intro i0 i1
    by_cases hex : ∃ j < k, c < f j
    · obtain ⟨hEq, hInf⟩ := ih hex i0 i1
      constructor
      · rw [maxFold_succ, maxFold_succ, hEq]
      · rw [maxFoldInf_succ_some f k _ hInf, maxFold_succ]
        split_ifs <;> rfl
    · have hall : ∀ j < k, f j ≤ c := by
        intro j hj
        by_contra hlt
        exact hex ⟨j, hj, not_le.mp hlt⟩
      have hk : c < f k := by
        rcases h with ⟨j, hj, hcf⟩
        rcases Nat.lt_succ_iff_lt_or_eq.mp hj with h' | h'
        · exact absurd (hall j h') (not_le.mpr hcf)
        · subst h'; exact hcf
      constructor
      · rw [maxFold_succ, maxFold_succ, maxFold_of_all_le f k c i0 hall,
          maxFold_of_all_le f k c i1 hall]
        simp only [if_pos (show (c, i0).1 < f k from hk),
          if_pos (show (c, i1).1 < f k from hk)]
      · rw [maxFold_succ, maxFold_of_all_le f k c i0 hall]
        rcases maxFoldInf_spec f k with ⟨_, hnone⟩ | ⟨v, j, hsome, hj, hv, _⟩
        · rw [maxFoldInf_succ_none f k hnone]
          simp only [if_pos (show (c, i0).1 < f k from hk)]
        · rw [maxFoldInf_succ_some f k _ hsome]
          have hvk : v < f k := by
            rw [hv]
            exact lt_of_le_of_lt (hall j hj) hk
          simp only [if_pos (show ((v, j) : ℚ × ℕ).1 < f k from hvk),
            if_pos (show (c, i0).1 < f k from hk)]

/-! ## Sentinel equivalence for the Perseus kernels (claim C8) -/

lemma computeBestAlpha_eq_fold (n ns m z rz : ℕ) (gamma : ℚ) (S : List ℤ)
    (T O : List ℚ) (Z : List ℤ) (B : List ℚ) (bIndex : ℕ) (Gamma : List ℚ)
    (rGamma a bj0 : ℕ) (alpha0 : List ℚ) :
    computeBestAlpha n ns m z rz gamma S T O Z B bIndex Gamma rGamma a bj0 alpha0 =
      (List.range z).foldl (baStepF n ns m z rz gamma S T O Z B bIndex Gamma rGamma a)
        (alpha0, bj0) := rfl

lemma computeBestAlphaInf_eq_fold (n ns m z rz : ℕ) (gamma : ℚ) (S : List ℤ)
    (T O : List ℚ) (Z : List ℤ) (B : List ℚ) (bIndex : ℕ) (Gamma : List ℚ)
    (rGamma a : ℕ) (alpha0 : List ℚ) :
    computeBestAlphaInf n ns m z rz gamma S T O Z B bIndex Gamma rGamma a alpha0 =
      (List.range z).foldl (baStepI n ns m z rz gamma S T O Z B bIndex Gamma rGamma a)
        alpha0 := rfl

lemma updateStep_eq_fold (n ns m z rz : ℕ) (gamma : ℚ) (S : List ℤ)
    (T O R : List ℚ) (Z : List ℤ) (B : List ℚ) (Gamma : List ℚ)
    (rGamma bIndex : ℕ) (bjs : ℕ → ℕ) (aj : List ℚ) :
    updateStep n ns m z rz gamma S T O R Z B Gamma rGamma bIndex bjs aj =
      (((List.range m).foldl (usStepF n ns m z rz gamma S T O R Z B Gamma rGamma bIndex bjs)
        (aj, 0, fltMin)).1,
       ((List.range m).foldl (usStepF n ns m z rz gamma S T O R Z B Gamma rGamma bIndex bjs)
        (aj, 0, fltMin)).2.1) := rfl

lemma updateStepInf_eq_fold (n ns m z rz : ℕ) (gamma : ℚ) (S : List ℤ)
    (T O R : List ℚ) (Z : List ℤ) (B : List ℚ) (Gamma : List ℚ)
    (rGamma bIndex : ℕ) :
    updateStepInf n ns m z rz gamma S T O R Z B Gamma rGamma bIndex =
      ((List.range m).foldl (usStepI n ns m z rz gamma S T O R Z B Gamma rGamma bIndex)
        none).map (fun s => (s.1, s.2.1)) := rfl

/-- Under the per-observation hypothesis the `FLT_MIN` best-alpha fold is
independent of the carried uninitialized `bestj` and agrees with the `-∞`
fold. -/
lemma baFold_eq_inf (n ns m z rz : ℕ) (gamma : ℚ) (S : List ℤ) (T O : List ℚ)
    (Z : List ℤ) (B : List ℚ) (bIndex : ℕ) (Gamma : List ℚ) (rGamma a : ℕ)
    (L : List ℕ)
    (h : ∀ o ∈ L, ∃ j < rGamma,
      fltMin < obsScore n ns m z rz gamma S T O Z B bIndex Gamma a o j) :
    ∀ bj0 alpha0,
      ((L.foldl (baStepF n ns m z rz gamma S T O Z B bIndex Gamma rGamma a)
        (alpha0, bj0)).1) =
      L.foldl (baStepI n ns m z rz gamma S T O Z B bIndex Gamma rGamma a) alpha0 := by
  induction L with
  | nil => intro bj0 alpha0; rfl
  | cons o L ihL =>
    intro bj0 alpha0
    simp only [List.foldl_cons]
    have ho := h o (by simp)
    have hInf := (maxFold_eq_inf
      (fun j => obsScore n ns m z rz gamma S T O Z B bIndex Gamma a o j)
      rGamma fltMin ho bj0 0).2
    have hbj : ((maxFoldInf
        (fun j => obsScore n ns m z rz gamma S T O Z B bIndex Gamma a o j) rGamma).map
          Prod.snd).getD 0
        = (maxFold (fun j => obsScore n ns m z rz gamma S T O Z B bIndex Gamma a o j)
            rGamma fltMin bj0).2 := by
      rw [hInf]; rfl
    have hstep : baStepF n ns m z rz gamma S T O Z B bIndex Gamma rGamma a (alpha0, bj0) o =
        (baStepI n ns m z rz gamma S T O Z B bIndex Gamma rGamma a alpha0 o,
         (maxFold (fun j => obsScore n ns m z rz gamma S T O Z B bIndex Gamma a o j)
            rGamma fltMin bj0).2) := by
      simp only [baStepF, baStepI, hbj]
    rw [hstep]
    exact ihL (fun o' ho' => h o' (by simp [ho'])) _ _

lemma baFold_length (n ns m z rz : ℕ) (gamma : ℚ) (S : List ℤ) (T O : List ℚ)
    (Z : List ℤ) (B : List ℚ) (bIndex : ℕ) (Gamma : List ℚ) (rGamma a : ℕ)
    (L : List ℕ) :
    ∀ st : List ℚ × ℕ, st.1.length = n →
      ((L.foldl (baStepF n ns m z rz gamma S T O Z B bIndex Gamma rGamma a) st).1).length
        = n := by
  induction L with
  | nil => intro st h; exact h
  | cons o L ihL =>
    intro st h
    simp only [List.foldl_cons]
    exact ihL _ (by simp [baStepF])

lemma usFold_length (n ns m z rz : ℕ) (gamma : ℚ) (S : List ℤ) (T O R : List ℚ)
    (Z : List ℤ) (B : List ℚ) (Gamma : List ℚ) (rGamma bIndex : ℕ) (bjs : ℕ → ℕ)
    (L : List ℕ) :
    ∀ st : List ℚ × ℕ × ℚ, st.1.length = n →
      ((L.foldl (usStepF n ns m z rz gamma S T O R Z B Gamma rGamma bIndex bjs) st).1).length
        = n := by
  induction L with
  | nil => intro st h; exact h
  | cons a L ihL =>
    intro st h
    simp only [List.foldl_cons]
    apply ihL
    simp only [usStepF]
    split_ifs with hc
    · rw [computeBestAlpha_eq_fold]
      exact baFold_length n ns m z rz gamma S T O Z B bIndex Gamma rGamma a _ _ (by simp)
    · exact h

/-- The alpha-vector returned by `pomdp_perseus_update_step_cpu` has length `n`
whenever the uninitialized buffer does. -/
lemma updateStep_fst_length (n ns m z rz : ℕ) (gamma : ℚ) (S : List ℤ)
    (T O R : List ℚ) (Z : List ℤ) (B : List ℚ) (Gamma : List ℚ)
    (rGamma bIndex : ℕ) (bjs : ℕ → ℕ) (aj : List ℚ) (haj : aj.length = n) :
    (updateStep n ns m z rz gamma S T O R Z B Gamma rGamma bIndex bjs aj).1.length = n := by
  rw [updateStep_eq_fold]
  exact usFold_length n ns m z rz gamma S T O R Z B Gamma rGamma bIndex bjs _ _ haj

/-- One action step preserves the fold relation. -/
lemma usStep_rel (n ns m z rz : ℕ) (gamma : ℚ) (S : List ℤ) (T O R : List ℚ)
    (Z : List ℤ) (B : List ℚ) (Gamma : List ℚ) (rGamma bIndex : ℕ)
    (bjs : ℕ → ℕ) (aj : List ℚ) (a : ℕ)
    (ha : ∀ o < z, ∃ j < rGamma,
      fltMin < obsScore n ns m z rz gamma S T O Z B bIndex Gamma a o j)
    (st : List ℚ × ℕ × ℚ) (stI : Option (List ℚ × ℕ × ℚ)) (h : usRel aj st stI) :
    usRel aj (usStepF n ns m z rz gamma S T O R Z B Gamma rGamma bIndex bjs st a)
      (usStepI n ns m z rz gamma S T O R Z B Gamma rGamma bIndex stI a) := by
  have halpha : (computeBestAlpha n ns m z rz gamma S T O Z B bIndex Gamma rGamma a
      (bjs a) ((List.range n).map (fun s => getQ R (s * m + a)))).1 =
      computeBestAlphaInf n ns m z rz gamma S T O Z B bIndex Gamma rGamma a
        ((List.range n).map (fun s => getQ R (s * m + a))) := by
    rw [computeBestAlpha_eq_fold, computeBestAlphaInf_eq_fold]
    exact baFold_eq_inf n ns m z rz gamma S T O Z B bIndex Gamma rGamma a _
      (fun o ho => ha o (List.mem_range.mp ho)) _ _
  rcases h with ⟨h1, h2⟩ | ⟨s, h1, h2, h3⟩ | ⟨s, h1, h2, h3⟩
  · subst h1; subst h2
    simp only [usStepF, usStepI, halpha]
    split_ifs with hv
    · exact Or.inr (Or.inl ⟨_, rfl, rfl, hv⟩)
    · exact Or.inr (Or.inr ⟨_, rfl, rfl, le_of_not_lt hv⟩)
  · subst h1; subst h2
    simp only [usStepF, usStepI, halpha]
    split_ifs with hv
    · exact Or.inr (Or.inl ⟨_, rfl, rfl, lt_trans h3 hv⟩)
    · exact Or.inr (Or.inl ⟨_, rfl, rfl, h3⟩)
  · subst h1; subst h2
    simp only [usStepF, usStepI, halpha]
    by_cases hv : fltMin <
        computeBDotAlpha rz Z B bIndex
          (computeBestAlphaInf n ns m z rz gamma S T O Z B bIndex Gamma rGamma a
            ((List.range n).map (fun s => getQ R (s * m + a))))
    · rw [if_pos hv, if_pos (lt_of_le_of_lt h3 hv)]
      exact Or.inr (Or.inl ⟨_, rfl, rfl, hv⟩)
    · rw [if_neg hv]
      split_ifs with hv2
      · exact Or.inr (Or.inr ⟨_, rfl, rfl, le_of_not_lt hv⟩)
      · exact Or.inr (Or.inr ⟨_, rfl, rfl, h3⟩)

lemma usFold_rel (n ns m z rz : ℕ) (gamma : ℚ) (S : List ℤ) (T O R : List ℚ)
    (Z : List ℤ) (B : List ℚ) (Gamma : List ℚ) (rGamma bIndex : ℕ)
    (bjs : ℕ → ℕ) (aj : List ℚ) (L : List ℕ)
    (hA : ∀ a ∈ L, ∀ o < z, ∃ j < rGamma,
      fltMin < obsScore n ns m z rz gamma S T O Z B bIndex Gamma a o j) :
    ∀ st stI, usRel aj st stI →
      usRel aj (L.foldl (usStepF n ns m z rz gamma S T O R Z B Gamma rGamma bIndex bjs) st)
        (L.foldl (usStepI n ns m z rz gamma S T O R Z B Gamma rGamma bIndex) stI) := by
  induction L with
  | nil => intro st stI h; exact h
  | cons a L ihL =>
    intro st stI h
    simp only [List.foldl_cons]
    exact ihL (fun a' ha' => hA a' (by simp [ha'])) _ _
      (usStep_rel n ns m z rz gamma S T O R Z B Gamma rGamma bIndex bjs aj a
        (hA a (by simp)) st stI h)

/-- Once both folds agree on a triple whose value beats `FLT_MIN`, they agree
forever. -/
lemma usFold_keep (n ns m z rz : ℕ) (gamma : ℚ) (S : List ℤ) (T O R : List ℚ)
    (Z : List ℤ) (B : List ℚ) (Gamma : List ℚ) (rGamma bIndex : ℕ)
    (bjs : ℕ → ℕ) (L : List ℕ)
    (hA : ∀ a ∈ L, ∀ o < z, ∃ j < rGamma,
      fltMin < obsScore n ns m z rz gamma S T O Z B bIndex Gamma a o j) :
    ∀ s : List ℚ × ℕ × ℚ, fltMin < s.2.2 →
      ∃ s', L.foldl (usStepF n ns m z rz gamma S T O R Z B Gamma rGamma bIndex bjs) s = s' ∧
        L.foldl (usStepI n ns m z rz gamma S T O R Z B Gamma rGamma bIndex) (some s) = some s' ∧
        fltMin < s'.2.2 := by
  induction L with
  | nil => intro s hs; exact ⟨s, rfl, rfl, hs⟩
  | cons a L ihL =>
    intro s hs
    simp only [List.foldl_cons]
    have halpha : (computeBestAlpha n ns m z rz gamma S T O Z B bIndex Gamma rGamma a
        (bjs a) ((List.range n).map (fun s => getQ R (s * m + a)))).1 =
        computeBestAlphaInf n ns m z rz gamma S T O Z B bIndex Gamma rGamma a
          ((List.range n).map (fun s => getQ R (s * m + a))) := by
      rw [computeBestAlpha_eq_fold, computeBestAlphaInf_eq_fold]
      exact baFold_eq_inf n ns m z rz gamma S T O Z B bIndex Gamma rGamma a _
        (fun o ho => hA a (by simp) o (List.mem_range.mp ho)) _ _
    have hstep : usStepF n ns m z rz gamma S T O R Z B Gamma rGamma bIndex bjs s a =
        (usStepI n ns m z rz gamma S T O R Z B Gamma rGamma bIndex (some s) a).getD s ∧
        fltMin < ((usStepI n ns m z rz gamma S T O R Z B Gamma rGamma bIndex
          (some s) a).getD s).2.2 := by
      simp only [usStepF, usStepI, halpha]
      split_ifs with hv
      · exact ⟨rfl, lt_trans hs hv⟩
      · exact ⟨rfl, hs⟩
    have hI : usStepI n ns m z rz gamma S T O R Z B Gamma rGamma bIndex (some s) a =
        some ((usStepI n ns m z rz gamma S T O R Z B Gamma rGamma bIndex (some s) a).getD s) := by
      simp only [usStepI]
      split_ifs <;> rfl
    rw [hstep.1, hI]
    exact ihL (fun a' ha' => hA a' (by simp [ha'])) _ hstep.2

/-- C8, amended: with every max-reduction fed at least one candidate score
strictly above `FLT_MIN`, the kernels as written (with the `FLT_MIN`
initialization and the uninitialized locals) select exactly the value, argmax
index, alpha-vector and action of the `-∞`-sentinel kernels, independently of
the initial out-parameter value and of the uninitialized locals.  (With
candidates merely finite this fails: see the counterexample.) -/
theorem perseus_sentinel_equivalence :
    (∀ (n rz : ℕ) (Z : List ℤ) (B : List ℚ) (bIndex : ℕ) (Gamma : List ℚ)
       (rGamma i0 i1 : ℕ),
       (∃ i < rGamma, fltMin < computeBDotAlpha rz Z B bIndex (Gamma.drop (i * n))) →
       computeVb n rz Z B bIndex Gamma rGamma i0 = computeVb n rz Z B bIndex Gamma rGamma i1 ∧
       computeVbInf n rz Z B bIndex Gamma rGamma =
         some (computeVb n rz Z B bIndex Gamma rGamma i0)) ∧
    (∀ (n ns m z rz : ℕ) (gamma : ℚ) (S : List ℤ) (T O R : List ℚ) (Z : List ℤ)
       (B : List ℚ) (Gamma : List ℚ) (rGamma bIndex : ℕ) (bjs : ℕ → ℕ) (aj : List ℚ),
       (∀ a < m, ∀ o < z, ∃ j < rGamma,
         fltMin < obsScore n ns m z rz gamma S T O Z B bIndex Gamma a o j) →
       (∃ a < m, fltMin < actionValueInf n ns m z rz gamma S T O R Z B bIndex Gamma rGamma a) →
       updateStepInf n ns m z rz gamma S T O R Z B Gamma rGamma bIndex =
         some (updateStep n ns m z rz gamma S T O R Z B Gamma rGamma bIndex bjs aj)) := by
  constructor
  · intro n rz Z B bIndex Gamma rGamma i0 i1 h
    exact maxFold_eq_inf _ rGamma fltMin h i0 i1
  · intro n ns m z rz gamma S T O R Z B Gamma rGamma bIndex bjs aj hAll hEx
    obtain ⟨aStar, haStar, hv⟩ := hEx
    obtain ⟨L1, L2, hL⟩ := List.append_of_mem (List.mem_range.mpr haStar)
    rw [updateStep_eq_fold, updateStepInf_eq_fold, hL]
    simp only [List.foldl_append, List.foldl_cons]
    have hmem : ∀ a ∈ L1 ++ aStar :: L2, ∀ o < z, ∃ j < rGamma,
        fltMin < obsScore n ns m z rz gamma S T O Z B bIndex Gamma a o j := by
      rw [← hL]
      intro a ha
      exact hAll a (List.mem_range.mp ha)
    have h1 := usFold_rel n ns m z rz gamma S T O R Z B Gamma rGamma bIndex bjs aj L1
      (fun a ha => hmem a (by simp [ha])) (aj, 0, fltMin) none (Or.inl ⟨rfl, rfl⟩)
    have halpha : (computeBestAlpha n ns m z rz gamma S T O Z B bIndex Gamma rGamma aStar
        (bjs aStar) ((List.range n).map (fun s => getQ R (s * m + aStar)))).1 =
        computeBestAlphaInf n ns m z rz gamma S T O Z B bIndex Gamma rGamma aStar
          ((List.range n).map (fun s => getQ R (s * m + aStar))) := by
      rw [computeBestAlpha_eq_fold, computeBestAlphaInf_eq_fold]
      exact baFold_eq_inf n ns m z rz gamma S T O Z B bIndex Gamma rGamma aStar _
        (fun o ho => hmem aStar (by simp) o (List.mem_range.mp ho)) _ _
    have hvv : fltMin < computeBDotAlpha rz Z B bIndex
        (computeBestAlphaInf n ns m z rz gamma S T O Z B bIndex Gamma rGamma aStar
          ((List.range n).map (fun s => getQ R (s * m + aStar)))) := hv
    have hstar : ∃ s, usStepF n ns m z rz gamma S T O R Z B Gamma rGamma bIndex bjs
        (L1.foldl (usStepF n ns m z rz gamma S T O R Z B Gamma rGamma bIndex bjs)
          (aj, 0, fltMin)) aStar = s ∧
        usStepI n ns m z rz gamma S T O R Z B Gamma rGamma bIndex
          (L1.foldl (usStepI n ns m z rz gamma S T O R Z B Gamma rGamma bIndex) none)
          aStar = some s ∧ fltMin < s.2.2 := by
      rcases h1 with ⟨e1, e2⟩ | ⟨s, e1, e2, e3⟩ | ⟨s, e1, e2, e3⟩
      · rw [e1, e2]
        simp only [usStepF, usStepI, halpha]
        rw [if_pos hvv]
        exact ⟨_, rfl, rfl, hvv⟩
      · rw [e1, e2]
        simp only [usStepF, usStepI, halpha]
        split_ifs with hc
        · exact ⟨_, rfl, rfl, lt_trans e3 hc⟩
        · exact ⟨_, rfl, rfl, e3⟩
      · rw [e1, e2]
        simp only [usStepF, usStepI, halpha]
        rw [if_pos hvv, if_pos (lt_of_le_of_lt e3 hvv)]
        exact ⟨_, rfl, rfl, hvv⟩
    obtain ⟨s, hsF, hsI, hs⟩ := hstar
    rw [hsF, hsI]
    obtain ⟨s', e1, e2, _⟩ := usFold_keep n ns m z rz gamma S T O R Z B Gamma rGamma
      bIndex bjs L2 (fun a ha => hmem a (by simp [ha])) s hs
    rw [e1, e2]
    rfl

/-! ## Writes into the flat pools -/

lemma drop_listWrite {α : Type} (l : List α) (off : ℕ) (v : List α)
    (h : off ≤ l.length) :
    (listWrite l off v).drop off = v ++ l.drop (off + v.length) := by
  induction l generalizing off v with
  | nil =>
    have hoff : off = 0 := by simpa using h
    subst hoff
    cases v with
    | nil => rfl
    | cons y v' => simp [listWrite]
  | cons x l ih =>
    cases v with
    | nil => simp [listWrite]
    | cons y v' =>
      cases off with
      | zero =>
        show (y :: listWrite l 0 v').drop 0 =
          (y :: v') ++ (x :: l).drop (0 + (v'.length + 1))
        have harith : 0 + (v'.length + 1) = v'.length + 1 := by omega
        rw [harith, List.drop_zero, List.drop_succ_cons, List.cons_append]
        have hrec := ih 0 v' (Nat.zero_le _)
        rw [List.drop_zero] at hrec
        rw [hrec]
        have : 0 + v'.length = v'.length := by omega
        rw [this]
      | succ off' =>
        show (x :: listWrite l off' (y :: v')).drop (off' + 1) =
          (y :: v') ++ (x :: l).drop (off' + 1 + (v'.length + 1))
        have harith : off' + 1 + (v'.length + 1) = (off' + (v'.length + 1)) + 1 := by omega
        rw [harith, List.drop_succ_cons, List.drop_succ_cons]
        exact ih off' (y :: v') (by simpa using h)

lemma getE_listWrite_single {α : Type} (d : α) (l : List α) (off : ℕ) (x : α)
    (h : off ≤ l.length) : getE d (listWrite l off [x]) off = x := by
  induction l generalizing off with
  | nil =>
    have hoff : off = 0 := by simpa using h
    subst hoff
    rfl
  | cons y l ih =>
    cases off with
    | zero => rfl
    | succ off' =>
      show getE d (y :: listWrite l off' [x]) (off' + 1) = x
      exact ih off' (by simpa using h)

lemma rowSlice_listWrite (l : List ℚ) (i n : ℕ) (v : List ℚ)
    (hoff : i * n ≤ l.length) (hv : v.length = n) :
    rowSlice n (listWrite l (i * n) v) i = v := by
  unfold rowSlice
  rw [drop_listWrite l (i * n) v hoff, ← hv, List.take_left]

/-! ## Projections of the update body -/

lemma perseusUpdateAux_Gd (p : POMDP) (u : UpdIn) (idx : ℕ) (bjs : ℕ → ℕ)
    (aj : List ℚ) :
    (perseusUpdateAux p u idx bjs aj).Gd =
      listWrite u.Gd (u.rGd * p.n) (auxNewRow p u idx bjs aj) := by
  simp only [perseusUpdateAux, auxNewRow]
  split_ifs <;> rfl

lemma perseusUpdateAux_piD (p : POMDP) (u : UpdIn) (idx : ℕ) (bjs : ℕ → ℕ)
    (aj : List ℚ) :
    (perseusUpdateAux p u idx bjs aj).piD =
      listWrite u.piD u.rGd [auxNewAct p u idx bjs aj] := by
  simp only [perseusUpdateAux, auxNewAct]
  split_ifs <;> rfl

lemma perseusUpdateAux_rGd (p : POMDP) (u : UpdIn) (idx : ℕ) (bjs : ℕ → ℕ)
    (aj : List ℚ) :
    (perseusUpdateAux p u idx bjs aj).rGd = u.rGd + 1 := by
  simp only [perseusUpdateAux]
  split_ifs <;> rfl

/-- The destination-side fields of the state written by
`pomdp_perseus_update_cpu` (the side selected by the parity of the entry
horizon) are the body's outputs. -/
lemma perseusUpdate_dest (p : POMDP) (σ : PerseusState) (idx : ℕ) (bjs : ℕ → ℕ)
    (aj : List ℚ) :
    (if σ.currentHorizon % 2 = 0 then ((perseusUpdate p σ idx bjs aj).2).GammaPrime.getD []
     else ((perseusUpdate p σ idx bjs aj).2).Gamma.getD []) =
      (perseusUpdateAux p (unpackState σ) idx bjs aj).Gd ∧
    (if σ.currentHorizon % 2 = 0 then ((perseusUpdate p σ idx bjs aj).2).piPrime.getD []
     else ((perseusUpdate p σ idx bjs aj).2).pi.getD []) =
      (perseusUpdateAux p (unpackState σ) idx bjs aj).piD ∧
    (if σ.currentHorizon % 2 = 0 then ((perseusUpdate p σ idx bjs aj).2).rGammaPrime
     else ((perseusUpdate p σ idx bjs aj).2).rGamma) =
      (perseusUpdateAux p (unpackState σ) idx bjs aj).rGd := by
  by_cases hev : σ.currentHorizon % 2 = 0 <;>
    simp [perseusUpdate, hev]

lemma auxNewRow_length (p : POMDP) (u : UpdIn) (idx : ℕ) (bjs : ℕ → ℕ)
    (aj : List ℚ) (haj : aj.length = p.n) (hGs : u.rGs * p.n ≤ u.Gs.length)
    (hj2 : (computeVb p.n p.rz p.Z p.B (getN u.BT idx) u.Gs u.rGs 0).2 < u.rGs) :
    (auxNewRow p u idx bjs aj).length = p.n := by
  simp only [auxNewRow]
  split_ifs
  · rw [List.length_take,
      updateStep_fst_length p.n p.ns p.m p.z p.rz p.gamma p.S p.T p.O p.R p.Z p.B
        u.Gs u.rGs (getN u.BT idx) bjs aj haj]
    exact min_self p.n
  · unfold rowSlice
    rw [List.length_take, List.length_drop]
    have h1 : ((computeVb p.n p.rz p.Z p.B (getN u.BT idx) u.Gs u.rGs 0).2 + 1) * p.n ≤
        u.Gs.length :=
      le_trans (Nat.mul_le_mul_right p.n (Nat.succ_le_of_lt hj2)) hGs
    have h2 : (computeVb p.n p.rz p.Z p.B (getN u.BT idx) u.Gs u.rGs 0).2 * p.n + p.n ≤
        u.Gs.length := by
      calc (computeVb p.n p.rz p.Z p.B (getN u.BT idx) u.Gs u.rGs 0).2 * p.n + p.n
          = ((computeVb p.n p.rz p.Z p.B (getN u.BT idx) u.Gs u.rGs 0).2 + 1) * p.n := by
            ring
        _ ≤ u.Gs.length := h1
    omega

/-- C1, amended: whenever at least one source-pool vector has `b·α` strictly
above `FLT_MIN` (so the true maximum and argmax coincide with the code's
clamped reduction), the acceptance rule holds exactly as the claim states it,
with the true maximum `Vnb` and the smallest-index argmax; the destination
count grows by exactly one. -/
theorem perseus_update_acceptance_amended (p : POMDP) (σ : PerseusState)
    (idx : ℕ) (bjs : ℕ → ℕ) (aj : List ℚ)
    (hGd : (unpackState σ).rGd * p.n + p.n ≤ (unpackState σ).Gd.length)
    (hpi : (unpackState σ).rGd ≤ (unpackState σ).piD.length)
    (haj : aj.length = p.n)
    (hGs : (unpackState σ).rGs * p.n ≤ (unpackState σ).Gs.length)
    (h : fltMin < ((computeVbInf p.n p.rz p.Z p.B (getN (unpackState σ).BT idx)
      (unpackState σ).Gs (unpackState σ).rGs).getD (fltMin, 0)).1) :
    c1ClaimAt p σ idx bjs aj := by
  have hInfEq : computeVbInf p.n p.rz p.Z p.B (getN (unpackState σ).BT idx)
      (unpackState σ).Gs (unpackState σ).rGs =
      maxFoldInf (fun i => computeBDotAlpha p.rz p.Z p.B (getN (unpackState σ).BT idx)
        ((unpackState σ).Gs.drop (i * p.n))) (unpackState σ).rGs := rfl
  rcases maxFoldInf_spec (fun i => computeBDotAlpha p.rz p.Z p.B
      (getN (unpackState σ).BT idx) ((unpackState σ).Gs.drop (i * p.n)))
      (unpackState σ).rGs with ⟨_, hnone⟩ | ⟨v, j, hsome, hj, hv, _⟩
  · rw [hInfEq, hnone] at h
    simp at h
  · have hflt : fltMin < v := by
      rw [hInfEq, hsome] at h
      simpa using h
    have hEq := (maxFold_eq_inf (fun i => computeBDotAlpha p.rz p.Z p.B
      (getN (unpackState σ).BT idx) ((unpackState σ).Gs.drop (i * p.n)))
      (unpackState σ).rGs fltMin
      ⟨j, hj, show fltMin < computeBDotAlpha p.rz p.Z p.B (getN (unpackState σ).BT idx)
        (List.drop (j * p.n) (unpackState σ).Gs) from hv ▸ hflt⟩ 0 0).2
    have hvb : ((computeVbInf p.n p.rz p.Z p.B (getN (unpackState σ).BT idx)
        (unpackState σ).Gs (unpackState σ).rGs).getD (fltMin, 0))
        = computeVb p.n p.rz p.Z p.B (getN (unpackState σ).BT idx)
          (unpackState σ).Gs (unpackState σ).rGs 0 := by
      rw [hInfEq, hEq]
      rfl
    have hvj : computeVb p.n p.rz p.Z p.B (getN (unpackState σ).BT idx)
        (unpackState σ).Gs (unpackState σ).rGs 0 = (v, j) :=
      Option.some_inj.mp (hEq.symm.trans hsome)
    have hj2 : (computeVb p.n p.rz p.Z p.B (getN (unpackState σ).BT idx)
        (unpackState σ).Gs (unpackState σ).rGs 0).2 < (unpackState σ).rGs := by
      rw [hvj]
      exact hj
    obtain ⟨hdG, hdPi, hdCnt⟩ := perseusUpdate_dest p σ idx bjs aj
    simp only [c1ClaimAt]
    rw [hvb]
    refine ⟨?_, ?_, ?_⟩
    · rw [hdG, perseusUpdateAux_Gd,
        rowSlice_listWrite _ _ _ _ (by omega) (auxNewRow_length p _ idx bjs aj haj hGs hj2)]
      rfl
    · rw [hdPi, perseusUpdateAux_piD]
      simp only [getN]
      rw [getE_listWrite_single _ _ _ _ hpi]
      rfl
    · rw [hdCnt, perseusUpdateAux_rGd]

/-- Witness for the amended C1 at the reachable state `exStep 1` of the `exM`
run (source pool `{[2, 1]}`, so the source maximum `2` exceeds `FLT_MIN`). -/
theorem perseus_update_acceptance_amended_witness :
    ((unpackState (exStep 1)).rGd * exM.n + exM.n ≤ (unpackState (exStep 1)).Gd.length ∧
     (unpackState (exStep 1)).rGd ≤ (unpackState (exStep 1)).piD.length ∧
     ([(0 : ℚ), 0] : List ℚ).length = exM.n ∧
     (unpackState (exStep 1)).rGs * exM.n ≤ (unpackState (exStep 1)).Gs.length ∧
     fltMin < ((computeVbInf exM.n exM.rz exM.Z exM.B (getN (unpackState (exStep 1)).BT 0)
       (unpackState (exStep 1)).Gs (unpackState (exStep 1)).rGs).getD (fltMin, 0)).1) ∧
    c1ClaimAt exM (exStep 1) 0 (fun _ => 0) [0, 0] :=
  ⟨⟨by decide, by decide, by decide, by decide, by decide⟩,
   perseus_update_acceptance_amended exM (exStep 1) 0 (fun _ => 0) [0, 0]
     (by decide) (by decide) (by decide) (by decide) (by decide)⟩

/-- C8, counterexample: with `rGamma = 2 ≥ 1` candidates (values `-5` and
`-3`, both finite), the `FLT_MIN`-sentinel `compute_Vb` keeps the sentinel
value and argmax index `0`, while the `-∞` version selects the true maximum
`-3` at index `1`. -/
theorem perseus_sentinel_cex :
    (1 : ℕ) ≤ 2 ∧
    computeVb 1 1 [0] [1] 0 [-5, -3] 2 0 = (fltMin, 0) ∧
    computeVbInf 1 1 [0] [1] 0 [-5, -3] 2 = some (-3, 1) ∧
    computeVbInf 1 1 [0] [1] 0 [-5, -3] 2 ≠
      some (computeVb 1 1 [0] [1] 0 [-5, -3] 2 0) := by decide

/-- Witness for the amended C8 at concrete inputs with scores above
`FLT_MIN`. -/
theorem perseus_sentinel_equivalence_witness :
    ((∃ i < 2, fltMin < computeBDotAlpha 1 [0] [1] 0 (([2, 1] : List ℚ).drop (i * 1))) ∧
     (∀ a < 1, ∀ o < 1, ∃ j < 1,
       fltMin < obsScore 1 1 1 1 1 1 [0] [1] [1] [0] [1] 0 [1] a o j) ∧
     (∃ a < 1, fltMin < actionValueInf 1 1 1 1 1 1 [0] [1] [1] [1] [0] [1] 0 [1] 1 a)) ∧
    (computeVb 1 1 [0] [1] 0 [2, 1] 2 0 = computeVb 1 1 [0] [1] 0 [2, 1] 2 5 ∧
     computeVbInf 1 1 [0] [1] 0 [2, 1] 2 = some (computeVb 1 1 [0] [1] 0 [2, 1] 2 0)) ∧
    updateStepInf 1 1 1 1 1 1 [0] [1] [1] [1] [0] [1] [1] 1 0 =
      some (updateStep 1 1 1 1 1 1 [0] [1] [1] [1] [0] [1] [1] 1 0 (fun _ => 7) [9]) :=
  ⟨⟨by decide, by decide, by decide⟩,
   perseus_sentinel_equivalence.1 1 1 [0] [1] 0 [2, 1] 2 0 5 (by decide),
   perseus_sentinel_equivalence.2 1 1 1 1 1 1 [0] [1] [1] [1] [0] [1] [1] 1 0
     (fun _ => 7) [9] (by decide) (by decide)⟩

/-! ## Further array-access lemmas -/

lemma getE_drop {α : Type} (d : α) (l : List α) (m i : ℕ) :
    getE d (l.drop m) i = getE d l (m + i) := by
  induction l generalizing m with
  | nil => simp [getE]
  | cons x l ih =>
    cases m with
    | zero =>
      rw [Nat.zero_add]
      rfl
    | succ m' =>
      show getE d (l.drop m') i = getE d (x :: l) (m' + 1 + i)
      rw [ih m']
      have : m' + 1 + i = (m' + i) + 1 := by omega
      rw [this]
      rfl

lemma getE_append_lt {α : Type} (d : α) (v w : List α) (i : ℕ) (h : i < v.length) :
    getE d (v ++ w) i = getE d v i := by
  induction v generalizing i with
  | nil => simp at h
  | cons x v ih =>
    cases i with
    | zero => rfl
    | succ i' =>
      show getE d (v ++ w) i' = getE d v i'
      exact ih i' (by simpa using h)

lemma getE_take_lt {α : Type} (d : α) (l : List α) (k i : ℕ) (h : i < k) :
    getE d (l.take k) i = getE d l i := by
  induction l generalizing k i with
  | nil => simp [getE]
  | cons x l ih =>
    cases k with
    | zero => omega
    | succ k' =>
      cases i with
      | zero => rfl
      | succ i' =>
        show getE d (l.take k') i' = getE d l i'
        exact ih k' i' (by omega)

lemma getE_listWrite_lt {α : Type} (d : α) (l : List α) (off : ℕ) (v : List α)
    (i : ℕ) (hi : i < off) (hoff : off ≤ l.length) :
    getE d (listWrite l off v) i = getE d l i := by
  induction l generalizing off v i with
  | nil => simp at hoff; omega
  | cons x l ih =>
    cases v with
    | nil => simp [listWrite]
    | cons y v' =>
      cases off with
      | zero => omega
      | succ off' =>
        cases i with
        | zero => rfl
        | succ i' =>
          show getE d (listWrite l off' (y :: v')) i' = getE d l i'
          exact ih off' (y :: v') i' (by omega) (by simpa using hoff)

lemma listWrite_nil {α : Type} (l : List α) (off : ℕ) :
    listWrite l off ([] : List α) = l := by
  induction l generalizing off with
  | nil => rfl
  | cons x l _ => cases off <;> rfl

lemma length_listWrite {α : Type} (l : List α) (off : ℕ) (v : List α)
    (h : off + v.length ≤ l.length) : (listWrite l off v).length = l.length := by
  induction l generalizing off v with
  | nil =>
    cases v with
    | nil => rfl
    | cons y v' => simp at h
  | cons x l ih =>
    cases v with
    | nil => rw [listWrite_nil]
    | cons y v' =>
      cases off with
      | zero =>
        show (y :: listWrite l 0 v').length = (x :: l).length
        simp only [List.length_cons]
        rw [ih 0 v' (by simp at h; omega)]
      | succ off' =>
        show (x :: listWrite l off' (y :: v')).length = (x :: l).length
        simp only [List.length_cons]
        rw [ih off' (y :: v') (by simp at h ⊢; omega)]

lemma getE_mem_take {α : Type} (d : α) (l : List α) (k i : ℕ) (hi : i < k)
    (hk : k ≤ l.length) : getE d l i ∈ l.take k := by
  induction l generalizing k i with
  | nil => simp at hk; omega
  | cons x l ih =>
    cases k with
    | zero => omega
    | succ k' =>
      cases i with
      | zero => simp [getE]
      | succ i' =>
        show getE d l i' ∈ (x :: l.take k')
        simp only [List.mem_cons]
        exact Or.inr (ih k' i' (by omega) (by simpa using hk))

/-! ## Filter cardinality lemmas -/

lemma filter_length_mono {α : Type} (l : List α) (q q0 : α → Bool)
    (h : ∀ a ∈ l, q a = true → q0 a = true) :
    (l.filter q).length ≤ (l.filter q0).length := by
  induction l with
  | nil => simp
  | cons x l ih =>
    have ih' := ih (fun a ha hq => h a (by simp [ha]) hq)
    by_cases hx : q x = true
    · rw [List.filter_cons_of_pos hx, List.filter_cons_of_pos (h x (by simp) hx)]
      simpa using ih'
    · rw [List.filter_cons_of_neg (by simpa using hx)]
      by_cases hx0 : q0 x = true
      · rw [List.filter_cons_of_pos hx0]
        exact le_trans ih' (by simp)
      · rw [List.filter_cons_of_neg (by simpa using hx0)]
        exact ih'

lemma filter_length_strict {α : Type} (l : List α) (q q0 : α → Bool)
    (h : ∀ a ∈ l, q a = true → q0 a = true) (b : α) (hb : b ∈ l)
    (hq0 : q0 b = true) (hq : q b = false) :
    (l.filter q).length < (l.filter q0).length := by
  induction l with
  | nil => simp at hb
  | cons x l ih =>
    rcases List.mem_cons.mp hb with hbx | hbl
    · subst hbx
      rw [List.filter_cons_of_neg (by simp [hq]), List.filter_cons_of_pos hq0]
      have := filter_length_mono l q q0 (fun a ha hqa => h a (by simp [ha]) hqa)
      simpa using Nat.lt_succ_of_le this
    · have ih' := ih (fun a ha hqa => h a (by simp [ha]) hqa) hbl
      by_cases hx : q x = true
      · rw [List.filter_cons_of_pos hx, List.filter_cons_of_pos (h x (by simp) hx)]
        simpa using ih'
      · rw [List.filter_cons_of_neg (by simpa using hx)]
        by_cases hx0 : q0 x = true
        · rw [List.filter_cons_of_pos hx0]
          exact lt_of_lt_of_le ih' (by simp)
        · rw [List.filter_cons_of_neg (by simpa using hx0)]
          exact ih'

/-! ## Value-at-belief under pool writes -/

/-- `b·α` only depends on the entries of `α` at indices below `n` when all
belief-support indices are below `n`. -/
lemma computeBDotAlpha_congr (n rz : ℕ) (Z : List ℤ) (B : List ℚ) (bIndex : ℕ)
    (a1 a2 : List ℚ) (hn : 0 < n) (hZ : ∀ x ∈ Z, x.toNat < n)
    (h : ∀ s < n, getQ a1 s = getQ a2 s) :
    computeBDotAlpha rz Z B bIndex a1 = computeBDotAlpha rz Z B bIndex a2 := by
  unfold computeBDotAlpha
  apply sum_map_congr
  intro j _
  congr 1
  apply h
  rcases getE_mem_or (0 : ℤ) Z (bIndex * rz + j) with he | he
  · simp only [getI, he]
    simpa using hn
  · exact hZ _ he

/-- Writing row `rGd` leaves the values of rows `0..rGd` unchanged, so the
clamped maximum over `rGd + 1` rows of the written pool dominates the one over
`rGd` rows of the original pool. -/
lemma computeVb_write_mono (p : POMDP) (Gd : List ℚ) (rGd : ℕ) (w : List ℚ)
    (i i0 : ℕ) (hn : 0 < p.n) (hZ : ∀ x ∈ p.Z, x.toNat < p.n)
    (hoff : rGd * p.n ≤ Gd.length) :
    (computeVb p.n p.rz p.Z p.B i Gd rGd i0).1 ≤
      (computeVb p.n p.rz p.Z p.B i (listWrite Gd (rGd * p.n) w) (rGd + 1) i0).1 := by
  have hcongr : ∀ jr < rGd,
      computeBDotAlpha p.rz p.Z p.B i ((listWrite Gd (rGd * p.n) w).drop (jr * p.n)) =
      computeBDotAlpha p.rz p.Z p.B i (Gd.drop (jr * p.n)) := by
    intro jr hjr
    apply computeBDotAlpha_congr p.n p.rz p.Z p.B i _ _ hn hZ
    intro s hs
    unfold getQ
    rw [getE_drop, getE_drop]
    exact getE_listWrite_lt 0 Gd (rGd * p.n) w (jr * p.n + s)
      (by
        have h1 : jr * p.n + s < (jr + 1) * p.n := by
          have : (jr + 1) * p.n = jr * p.n + p.n := by ring
          omega
        have h2 : (jr + 1) * p.n ≤ rGd * p.n :=
          Nat.mul_le_mul_right p.n (Nat.succ_le_of_lt hjr)
        omega) hoff
  have heq : (computeVb p.n p.rz p.Z p.B i (listWrite Gd (rGd * p.n) w) rGd i0).1 =
      (computeVb p.n p.rz p.Z p.B i Gd rGd i0).1 := by
    unfold computeVb
    rw [maxFold_congr _ _ rGd fltMin i0 hcongr]
  calc (computeVb p.n p.rz p.Z p.B i Gd rGd i0).1
      = (computeVb p.n p.rz p.Z p.B i (listWrite Gd (rGd * p.n) w) rGd i0).1 := heq.symm
    _ ≤ (computeVb p.n p.rz p.Z p.B i (listWrite Gd (rGd * p.n) w) (rGd + 1) i0).1 :=
        maxFold_fst_le_succ _ rGd fltMin i0

/-- The clamped maximum over the written pool dominates the value of the
written row itself. -/
lemma computeVb_write_row (p : POMDP) (Gd : List ℚ) (rGd : ℕ) (w : List ℚ)
    (i i0 : ℕ) (hn : 0 < p.n) (hZ : ∀ x ∈ p.Z, x.toNat < p.n)
    (hoff : rGd * p.n ≤ Gd.length) (hw : w.length = p.n) :
    computeBDotAlpha p.rz p.Z p.B i w ≤
      (computeVb p.n p.rz p.Z p.B i (listWrite Gd (rGd * p.n) w) (rGd + 1) i0).1 := by
  have hrow : computeBDotAlpha p.rz p.Z p.B i
      ((listWrite Gd (rGd * p.n) w).drop (rGd * p.n)) =
      computeBDotAlpha p.rz p.Z p.B i w := by
    apply computeBDotAlpha_congr p.n p.rz p.Z p.B i _ _ hn hZ
    intro s hs
    unfold getQ
    rw [drop_listWrite Gd (rGd * p.n) w hoff]
    exact getE_append_lt 0 w _ s (by omega)
  have hge := maxFold_ge (fun jr => computeBDotAlpha p.rz p.Z p.B i
    ((listWrite Gd (rGd * p.n) w).drop (jr * p.n))) (rGd + 1) fltMin i0 rGd
    (Nat.lt_succ_self rGd)
  refine le_trans (le_of_eq hrow.symm) ?_
  exact hge

/-- The clamped maximum is at least the sentinel. -/
lemma computeVb_ge_fltMin (p : POMDP) (G : List ℚ) (rG : ℕ) (i i0 : ℕ) :
    fltMin ≤ (computeVb p.n p.rz p.Z p.B i G rG i0).1 :=
  maxFold_fst_ge _ rG fltMin i0

lemma auxNewRow_length_all (p : POMDP) (u : UpdIn) (idx : ℕ) (bjs : ℕ → ℕ)
    (aj : List ℚ) (haj : aj.length = p.n) (hGsLen : u.Gs.length = p.r * p.n)
    (hsrc : u.rGs ≤ p.r) (hr : 0 < p.r) :
    (auxNewRow p u idx bjs aj).length = p.n := by
  simp only [auxNewRow]
  split_ifs
  · rw [List.length_take,
      updateStep_fst_length p.n p.ns p.m p.z p.rz p.gamma p.S p.T p.O p.R p.Z p.B
        u.Gs u.rGs (getN u.BT idx) bjs aj haj]
    exact min_self p.n
  · unfold rowSlice
    rw [List.length_take, List.length_drop, hGsLen]
    rcases maxFold_cases (fun i2 => computeBDotAlpha p.rz p.Z p.B (getN u.BT idx)
      (u.Gs.drop (i2 * p.n))) u.rGs fltMin 0 with hc | ⟨h1, _, _⟩
    · have hvbe : computeVb p.n p.rz p.Z p.B (getN u.BT idx) u.Gs u.rGs 0 =
          (fltMin, 0) := hc
      rw [hvbe]
      have hle : p.n ≤ p.r * p.n := Nat.le_mul_of_pos_left p.n hr
      simp only []
      omega
    · have hlt : (computeVb p.n p.rz p.Z p.B (getN u.BT idx) u.Gs u.rGs 0).2 <
          u.rGs := h1
      have h2 : ((computeVb p.n p.rz p.Z p.B (getN u.BT idx) u.Gs u.rGs 0).2 + 1) * p.n
          ≤ p.r * p.n :=
        Nat.mul_le_mul_right p.n (le_trans (Nat.succ_le_of_lt hlt) hsrc)
      have h3 : (computeVb p.n p.rz p.Z p.B (getN u.BT idx) u.Gs u.rGs 0).2 * p.n + p.n
          ≤ p.r * p.n := by
        calc (computeVb p.n p.rz p.Z p.B (getN u.BT idx) u.Gs u.rGs 0).2 * p.n + p.n
            = ((computeVb p.n p.rz p.Z p.B (getN u.BT idx) u.Gs u.rGs 0).2 + 1) * p.n := by
              ring
          _ ≤ p.r * p.n := h2
      omega

/-- The appended row never degrades the updated belief: the destination value
at `bIndex` after the append is at least the source value (regardless of the
backup result). -/
lemma aux_no_degrade (p : POMDP) (u : UpdIn) (idx : ℕ) (bjs : ℕ → ℕ)
    (aj : List ℚ) (hn : 0 < p.n) (hZ : ∀ x ∈ p.Z, x.toNat < p.n)
    (_hGsLen : u.Gs.length = p.r * p.n) (hoffGd : u.rGd * p.n ≤ u.Gd.length)
    (hrowlen : (auxNewRow p u idx bjs aj).length = p.n) :
    ¬ ((computeVb p.n p.rz p.Z p.B (getN u.BT idx)
          (listWrite u.Gd (u.rGd * p.n) (auxNewRow p u idx bjs aj)) (u.rGd + 1) 0).1 <
        (computeVb p.n p.rz p.Z p.B (getN u.BT idx) u.Gs u.rGs 0).1) := by
  have hrow := computeVb_write_row p u.Gd u.rGd (auxNewRow p u idx bjs aj)
    (getN u.BT idx) 0 hn hZ hoffGd hrowlen
  apply not_lt.mpr
  by_cases hacc : (computeVb p.n p.rz p.Z p.B (getN u.BT idx) u.Gs u.rGs 0).1 ≤
      computeBDotAlpha p.rz p.Z p.B (getN u.BT idx)
        (updateStep p.n p.ns p.m p.z p.rz p.gamma p.S p.T p.O p.R p.Z p.B
          u.Gs u.rGs (getN u.BT idx) bjs aj).1
  · have hbd : computeBDotAlpha p.rz p.Z p.B (getN u.BT idx) (auxNewRow p u idx bjs aj) =
        computeBDotAlpha p.rz p.Z p.B (getN u.BT idx)
          (updateStep p.n p.ns p.m p.z p.rz p.gamma p.S p.T p.O p.R p.Z p.B
            u.Gs u.rGs (getN u.BT idx) bjs aj).1 := by
      simp only [auxNewRow]
      rw [if_pos hacc]
      apply computeBDotAlpha_congr p.n p.rz p.Z p.B _ _ _ hn hZ
      intro s hs
      exact getE_take_lt 0 _ p.n s hs
    rw [hbd] at hrow
    exact le_trans hacc hrow
  · rcases maxFold_cases (fun i2 => computeBDotAlpha p.rz p.Z p.B (getN u.BT idx)
      (u.Gs.drop (i2 * p.n))) u.rGs fltMin 0 with hc | ⟨_, h2, _⟩
    · have hvbe : computeVb p.n p.rz p.Z p.B (getN u.BT idx) u.Gs u.rGs 0 =
          (fltMin, 0) := hc
      rw [hvbe]
      exact computeVb_ge_fltMin p _ _ _ _
    · have h2' : (computeVb p.n p.rz p.Z p.B (getN u.BT idx) u.Gs u.rGs 0).1 =
          computeBDotAlpha p.rz p.Z p.B (getN u.BT idx)
            (u.Gs.drop ((computeVb p.n p.rz p.Z p.B (getN u.BT idx) u.Gs u.rGs 0).2 * p.n)) :=
        h2
      have hbd : computeBDotAlpha p.rz p.Z p.B (getN u.BT idx) (auxNewRow p u idx bjs aj) =
          (computeVb p.n p.rz p.Z p.B (getN u.BT idx) u.Gs u.rGs 0).1 := by
        simp only [auxNewRow]
        rw [if_neg hacc]
        unfold rowSlice
        rw [h2']
        apply computeBDotAlpha_congr p.n p.rz p.Z p.B _ _ _ hn hZ
        intro s hs
        exact getE_take_lt 0 _ p.n s hs
      rw [hbd] at hrow
      exact hrow

/-- Core preservation theorem for one `pomdp_perseus_update_cpu` body on
invariant states with an in-range sampled index: the status is `Success` with
a strictly smaller `BTilde` and the invariant re-established on the same
parity, or `Converged` with the horizon advanced, the source count reset and
`BTilde` restored to `[0..r)` — never `OutOfMemory`. -/
theorem perseusUpdateAux_preserves (p : POMDP) (u : UpdIn) (idx : ℕ)
    (bjs : ℕ → ℕ) (aj : List ℚ) (hM : ModelOK p) (hI : PerseusInvAux p u)
    (hidx : idx < u.rT) (haj : aj.length = p.n) :
    ((perseusUpdateAux p u idx bjs aj).res = .success ∧
      PerseusInvAux p ⟨u.Gs, u.rGs, u.piS,
        (perseusUpdateAux p u idx bjs aj).Gd, (perseusUpdateAux p u idx bjs aj).rGd,
        (perseusUpdateAux p u idx bjs aj).piD, (perseusUpdateAux p u idx bjs aj).BT,
        (perseusUpdateAux p u idx bjs aj).rT, (perseusUpdateAux p u idx bjs aj).hor⟩ ∧
      (perseusUpdateAux p u idx bjs aj).rT < u.rT ∧
      (perseusUpdateAux p u idx bjs aj).hor = u.hor ∧
      (perseusUpdateAux p u idx bjs aj).rGs = u.rGs ∧
      (perseusUpdateAux p u idx bjs aj).rGd = u.rGd + 1) ∨
    ((perseusUpdateAux p u idx bjs aj).res = .converged ∧
      PerseusInvAux p ⟨(perseusUpdateAux p u idx bjs aj).Gd,
        (perseusUpdateAux p u idx bjs aj).rGd, (perseusUpdateAux p u idx bjs aj).piD,
        u.Gs, (perseusUpdateAux p u idx bjs aj).rGs, u.piS,
        (perseusUpdateAux p u idx bjs aj).BT, (perseusUpdateAux p u idx bjs aj).rT,
        (perseusUpdateAux p u idx bjs aj).hor⟩ ∧
      (perseusUpdateAux p u idx bjs aj).hor = u.hor + 1 ∧
      (perseusUpdateAux p u idx bjs aj).rT = p.r ∧
      (perseusUpdateAux p u idx bjs aj).rGs = 0 ∧
      (perseusUpdateAux p u idx bjs aj).rGd = u.rGd + 1) := by
  obtain ⟨hn, hr, hS, hZ⟩ := hM
  obtain ⟨lenGs, lenGd, lenPiS, lenPiD, lenBT, rTpos, srcLe, dstLe, btSpec⟩ := hI
  have hNoOOM : ¬ (p.r < u.rGd + 1) := by omega
  have hrowlen : (auxNewRow p u idx bjs aj).length = p.n :=
    auxNewRow_length_all p u idx bjs aj haj lenGs srcLe hr
  have hoffGd : u.rGd * p.n ≤ u.Gd.length := by
    rw [lenGd]
    exact Nat.mul_le_mul_right p.n (by omega)
  have hGd2len : (listWrite u.Gd (u.rGd * p.n) (auxNewRow p u idx bjs aj)).length =
      p.r * p.n := by
    rw [length_listWrite _ _ _ ?_, lenGd]
    rw [hrowlen, lenGd]
    have : (u.rGd + 1) * p.n ≤ p.r * p.n := Nat.mul_le_mul_right p.n (by omega)
    calc u.rGd * p.n + p.n = (u.rGd + 1) * p.n := by ring
      _ ≤ p.r * p.n := this
  have hpiD2len : (listWrite u.piD u.rGd [auxNewAct p u idx bjs aj]).length = p.r := by
    rw [length_listWrite _ _ _ ?_, lenPiD]
    simp only [List.length_cons, List.length_nil]
    omega
  -- strict shrink of the rebuilt BTilde
  have hbmem : getN u.BT idx ∈ u.BT.take u.rT :=
    getE_mem_take 0 u.BT u.rT idx hidx (by rw [lenBT]; omega)
  have hkeep := aux_no_degrade p u idx bjs aj hn hZ lenGs hoffGd hrowlen
  have hmono : ∀ i2 ∈ List.range p.r,
      (decide ((computeVb p.n p.rz p.Z p.B i2
          (listWrite u.Gd (u.rGd * p.n) (auxNewRow p u idx bjs aj)) (u.rGd + 1) 0).1 <
        (computeVb p.n p.rz p.Z p.B i2 u.Gs u.rGs 0).1) = true) →
      (decide ((computeVb p.n p.rz p.Z p.B i2 u.Gd u.rGd 0).1 <
        (computeVb p.n p.rz p.Z p.B i2 u.Gs u.rGs 0).1) = true) := by
    intro i2 _ hq
    rw [decide_eq_true_eq] at hq ⊢
    exact lt_of_le_of_lt (computeVb_write_mono p u.Gd u.rGd _ i2 0 hn hZ hoffGd) hq
  have hqb : (decide ((computeVb p.n p.rz p.Z p.B (getN u.BT idx)
      (listWrite u.Gd (u.rGd * p.n) (auxNewRow p u idx bjs aj)) (u.rGd + 1) 0).1 <
      (computeVb p.n p.rz p.Z p.B (getN u.BT idx) u.Gs u.rGs 0).1)) = false := by
    rw [decide_eq_false_iff_not]
    exact hkeep
  have hdec : (degradedSet p u.Gs u.rGs
      (listWrite u.Gd (u.rGd * p.n) (auxNewRow p u idx bjs aj)) (u.rGd + 1)).length <
      u.rT := by
    rcases btSpec with ⟨hfull, _⟩ | hfd
    · have hrT : u.rT = p.r := by
        have hlen := congrArg List.length hfull
        rw [List.length_take, lenBT, List.length_range] at hlen
        omega
      have hbm2 : getN u.BT idx ∈ List.range p.r := by
        rw [← hfull]
        exact hbmem
      unfold degradedSet
      rw [hrT]
      calc ((List.range p.r).filter _).length
          < ((List.range p.r).filter (fun _ => true)).length := by
            apply filter_length_strict _ _ _ ?_ (getN u.BT idx) hbm2 rfl hqb
            intro a _ _
            rfl
        _ ≤ p.r := by
            rw [List.filter_true]
            simp
    · have hbm2 : getN u.BT idx ∈ degradedSet p u.Gs u.rGs u.Gd u.rGd := by
        rw [← hfd]
        exact hbmem
      unfold degradedSet at hbm2 ⊢
      have hq0 := (List.mem_filter.mp hbm2).2
      have hmem2 := (List.mem_filter.mp hbm2).1
      have hstrict := filter_length_strict (List.range p.r) _ _ hmono
        (getN u.BT idx) hmem2 hq0 hqb
      have hlen2 : ((List.range p.r).filter (fun i2 =>
          decide ((computeVb p.n p.rz p.Z p.B i2 u.Gd u.rGd 0).1 <
            (computeVb p.n p.rz p.Z p.B i2 u.Gs u.rGs 0).1))).length = u.rT := by
        have := congrArg List.length hfd
        rw [List.length_take, lenBT] at this
        unfold degradedSet at this
        omega
      omega
  -- branch on the rebuilt set
  by_cases hnb : (degradedSet p u.Gs u.rGs
      (listWrite u.Gd (u.rGd * p.n) (auxNewRow p u idx bjs aj)) (u.rGd + 1)).length = 0
  · right
    have haux : perseusUpdateAux p u idx bjs aj =
        ⟨.converged, listWrite u.Gd (u.rGd * p.n) (auxNewRow p u idx bjs aj),
         u.rGd + 1, listWrite u.piD u.rGd [auxNewAct p u idx bjs aj], 0,
         List.range p.r, p.r, u.hor + 1⟩ := by
      simp only [perseusUpdateAux]
      rw [if_neg hNoOOM, if_pos hnb]
    rw [haux]
    dsimp only
    refine ⟨rfl, ?_, rfl, rfl, rfl, rfl⟩
    exact {
      lenGs := hGd2len
      lenGd := lenGs
      lenPiS := hpiD2len
      lenPiD := lenPiS
      lenBT := by simp
      rTpos := hr
      srcLe := by dsimp only; omega
      dstLe := by dsimp only; omega
      btSpec := Or.inl ⟨List.take_of_length_le (by simp), rfl⟩ }
  · left
    have haux : perseusUpdateAux p u idx bjs aj =
        ⟨.success, listWrite u.Gd (u.rGd * p.n) (auxNewRow p u idx bjs aj),
         u.rGd + 1, listWrite u.piD u.rGd [auxNewAct p u idx bjs aj], u.rGs,
         degradedSet p u.Gs u.rGs
           (listWrite u.Gd (u.rGd * p.n) (auxNewRow p u idx bjs aj)) (u.rGd + 1) ++
           u.BT.drop (degradedSet p u.Gs u.rGs
             (listWrite u.Gd (u.rGd * p.n) (auxNewRow p u idx bjs aj)) (u.rGd + 1)).length,
         (degradedSet p u.Gs u.rGs
           (listWrite u.Gd (u.rGd * p.n) (auxNewRow p u idx bjs aj)) (u.rGd + 1)).length,
         u.hor⟩ := by
      simp only [perseusUpdateAux]
      rw [if_neg hNoOOM, if_neg hnb]
    rw [haux]
    dsimp only
    refine ⟨rfl, ?_, hdec, rfl, rfl, rfl⟩
    exact {
      lenGs := lenGs
      lenGd := hGd2len
      lenPiS := lenPiS
      lenPiD := hpiD2len
      lenBT := by
        rw [List.length_append, List.length_drop, lenBT]
        omega
      rTpos := by dsimp only; omega
      srcLe := srcLe
      dstLe := by dsimp only; omega
      btSpec := Or.inr (List.take_left _ _) }

/-! ## Transport through the parity wrapper and the reachability invariant -/

lemma unpackState_rT (σ : PerseusState) : (unpackState σ).rT = σ.rTilde := by
  unfold unpackState
  split_ifs <;> rfl

lemma unpackState_hor (σ : PerseusState) : (unpackState σ).hor = σ.currentHorizon := by
  unfold unpackState
  split_ifs <;> rfl

lemma unpackState_BT (σ : PerseusState) : (unpackState σ).BT = σ.BTilde.getD [] := by
  unfold unpackState
  split_ifs <;> rfl

lemma perseusUpdate_res (p : POMDP) (σ : PerseusState) (idx : ℕ) (bjs : ℕ → ℕ)
    (aj : List ℚ) : (perseusUpdate p σ idx bjs aj).1 =
      (perseusUpdateAux p (unpackState σ) idx bjs aj).res := rfl

lemma perseusUpdate_rTilde (p : POMDP) (σ : PerseusState) (idx : ℕ) (bjs : ℕ → ℕ)
    (aj : List ℚ) : ((perseusUpdate p σ idx bjs aj).2).rTilde =
      (perseusUpdateAux p (unpackState σ) idx bjs aj).rT := by
  by_cases h : σ.currentHorizon % 2 = 0 <;> simp [perseusUpdate, h]

lemma perseusUpdate_horizon (p : POMDP) (σ : PerseusState) (idx : ℕ) (bjs : ℕ → ℕ)
    (aj : List ℚ) : ((perseusUpdate p σ idx bjs aj).2).currentHorizon =
      (perseusUpdateAux p (unpackState σ) idx bjs aj).hor := by
  by_cases h : σ.currentHorizon % 2 = 0 <;> simp [perseusUpdate, h]

lemma unpackState_even (σ : PerseusState) (h : σ.currentHorizon % 2 = 0) :
    unpackState σ = ⟨σ.Gamma.getD [], σ.rGamma, σ.pi.getD [],
      σ.GammaPrime.getD [], σ.rGammaPrime, σ.piPrime.getD [],
      σ.BTilde.getD [], σ.rTilde, σ.currentHorizon⟩ := by
  unfold unpackState
  rw [if_pos h]

lemma unpackState_odd (σ : PerseusState) (h : ¬ σ.currentHorizon % 2 = 0) :
    unpackState σ = ⟨σ.GammaPrime.getD [], σ.rGammaPrime, σ.piPrime.getD [],
      σ.Gamma.getD [], σ.rGamma, σ.pi.getD [],
      σ.BTilde.getD [], σ.rTilde, σ.currentHorizon⟩ := by
  unfold unpackState
  rw [if_neg h]

lemma unpackState_update_same (p : POMDP) (σ : PerseusState) (idx : ℕ)
    (bjs : ℕ → ℕ) (aj : List ℚ)
    (hsame : (perseusUpdateAux p (unpackState σ) idx bjs aj).hor % 2 =
      σ.currentHorizon % 2) :
    unpackState ((perseusUpdate p σ idx bjs aj).2) =
      ⟨(unpackState σ).Gs, (perseusUpdateAux p (unpackState σ) idx bjs aj).rGs,
       (unpackState σ).piS,
       (perseusUpdateAux p (unpackState σ) idx bjs aj).Gd,
       (perseusUpdateAux p (unpackState σ) idx bjs aj).rGd,
       (perseusUpdateAux p (unpackState σ) idx bjs aj).piD,
       (perseusUpdateAux p (unpackState σ) idx bjs aj).BT,
       (perseusUpdateAux p (unpackState σ) idx bjs aj).rT,
       (perseusUpdateAux p (unpackState σ) idx bjs aj).hor⟩ := by
  by_cases h : σ.currentHorizon % 2 = 0
  · have hu := unpackState_even σ h
    rw [hu] at hsame ⊢
    rw [h] at hsame
    simp [perseusUpdate, unpackState, h, hu, hsame]
  · have hu := unpackState_odd σ h
    rw [hu] at hsame ⊢
    have h2 : ¬ ((perseusUpdateAux p
        ⟨σ.GammaPrime.getD [], σ.rGammaPrime, σ.piPrime.getD [],
         σ.Gamma.getD [], σ.rGamma, σ.pi.getD [],
         σ.BTilde.getD [], σ.rTilde, σ.currentHorizon⟩ idx bjs aj).hor % 2 = 0) := by
      rw [hsame]
      exact h
    simp [perseusUpdate, unpackState, h, hu, h2]

lemma unpackState_update_flip (p : POMDP) (σ : PerseusState) (idx : ℕ)
    (bjs : ℕ → ℕ) (aj : List ℚ)
    (hdiff : ¬ ((perseusUpdateAux p (unpackState σ) idx bjs aj).hor % 2 =
      σ.currentHorizon % 2)) :
    unpackState ((perseusUpdate p σ idx bjs aj).2) =
      ⟨(perseusUpdateAux p (unpackState σ) idx bjs aj).Gd,
       (perseusUpdateAux p (unpackState σ) idx bjs aj).rGd,
       (perseusUpdateAux p (unpackState σ) idx bjs aj).piD,
       (unpackState σ).Gs,
       (perseusUpdateAux p (unpackState σ) idx bjs aj).rGs,
       (unpackState σ).piS,
       (perseusUpdateAux p (unpackState σ) idx bjs aj).BT,
       (perseusUpdateAux p (unpackState σ) idx bjs aj).rT,
       (perseusUpdateAux p (unpackState σ) idx bjs aj).hor⟩ := by
  by_cases h : σ.currentHorizon % 2 = 0
  · have hu := unpackState_even σ h
    rw [hu] at hdiff ⊢
    rw [h] at hdiff
    simp [perseusUpdate, unpackState, h, hu, hdiff]
  · have hu := unpackState_odd σ h
    rw [hu] at hdiff ⊢
    have h2 : (perseusUpdateAux p
        ⟨σ.GammaPrime.getD [], σ.rGammaPrime, σ.piPrime.getD [],
         σ.Gamma.getD [], σ.rGamma, σ.pi.getD [],
         σ.BTilde.getD [], σ.rTilde, σ.currentHorizon⟩ idx bjs aj).hor % 2 = 0 := by
      omega
    simp [perseusUpdate, unpackState, h, hu, h2]

lemma perseusUpdate_preserves (p : POMDP) (σ : PerseusState) (idx : ℕ)
    (bjs : ℕ → ℕ) (aj : List ℚ) (hM : ModelOK p) (hI : PerseusInv p σ)
    (hidx : idx < σ.rTilde) (haj : aj.length = p.n) :
    PerseusInv p ((perseusUpdate p σ idx bjs aj).2) ∧
    (((perseusUpdate p σ idx bjs aj).1 = .success ∧
        ((perseusUpdate p σ idx bjs aj).2).rTilde < σ.rTilde ∧
        ((perseusUpdate p σ idx bjs aj).2).currentHorizon = σ.currentHorizon) ∨
      ((perseusUpdate p σ idx bjs aj).1 = .converged ∧
        ((perseusUpdate p σ idx bjs aj).2).currentHorizon = σ.currentHorizon + 1 ∧
        ((perseusUpdate p σ idx bjs aj).2).rTilde = p.r)) := by
  have hidx' : idx < (unpackState σ).rT := by
    rw [unpackState_rT]
    exact hidx
  rcases perseusUpdateAux_preserves p (unpackState σ) idx bjs aj hM hI hidx' haj with
    ⟨hres, hinv, hlt, hhor, hrgs, _⟩ | ⟨hres, hinv, hhor, hrt, _, _⟩
  · have hsame : (perseusUpdateAux p (unpackState σ) idx bjs aj).hor % 2 =
        σ.currentHorizon % 2 := by rw [hhor, unpackState_hor]
    constructor
    · show PerseusInvAux p (unpackState ((perseusUpdate p σ idx bjs aj).2))
      rw [unpackState_update_same p σ idx bjs aj hsame, hrgs]
      exact hinv
    · left
      refine ⟨?_, ?_, ?_⟩
      · rw [perseusUpdate_res]
        exact hres
      · rw [perseusUpdate_rTilde]
        calc (perseusUpdateAux p (unpackState σ) idx bjs aj).rT
            < (unpackState σ).rT := hlt
          _ = σ.rTilde := unpackState_rT σ
      · rw [perseusUpdate_horizon, hhor, unpackState_hor]
  · have hdiff : ¬ ((perseusUpdateAux p (unpackState σ) idx bjs aj).hor % 2 =
        σ.currentHorizon % 2) := by
      rw [hhor, unpackState_hor]
      omega
    constructor
    · show PerseusInvAux p (unpackState ((perseusUpdate p σ idx bjs aj).2))
      rw [unpackState_update_flip p σ idx bjs aj hdiff]
      exact hinv
    · right
      refine ⟨?_, ?_, ?_⟩
      · rw [perseusUpdate_res]
        exact hres
      · rw [perseusUpdate_horizon, hhor, unpackState_hor]
      · rw [perseusUpdate_rTilde]
        exact hrt

lemma initialize_inv (p : POMDP) (g0 : List ℚ) (hM : ModelOK p)
    (hg : g0.length = p.r * p.n) : PerseusInv p (perseusInit p g0).2 := by
  obtain ⟨hn, hr, _, _⟩ := hM
  have hu : unpackState (perseusInit p g0).2 =
      ⟨g0.take (p.r * p.n), 0, List.replicate p.r 0,
       g0.take (p.r * p.n), 0, List.replicate p.r 0,
       List.range p.r, p.r, 0⟩ := by
    unfold perseusInit unpackState
    simp
  show PerseusInvAux p (unpackState (perseusInit p g0).2)
  rw [hu]
  exact {
    lenGs := by rw [List.length_take, hg]; exact Nat.min_self _
    lenGd := by rw [List.length_take, hg]; exact Nat.min_self _
    lenPiS := by simp
    lenPiD := by simp
    lenBT := by simp
    rTpos := hr
    srcLe := Nat.zero_le p.r
    dstLe := by dsimp only; omega
    btSpec := Or.inl ⟨List.take_of_length_le (by simp), rfl⟩ }

lemma reachIn_inv (p : POMDP) (g0 : List ℚ) (σ : PerseusState) (hM : ModelOK p)
    (hg : g0.length = p.r * p.n) (hR : PerseusReachIn p g0 σ) : PerseusInv p σ := by
  induction hR with
  | init => exact initialize_inv p g0 hM hg
  | step σ0 idx bjs aj _ hidx haj ih =>
      exact (perseusUpdate_preserves p σ0 idx bjs aj hM ih hidx haj).1

/-- C2, amended: under the input contract (`ModelOK`, correctly sized initial
pool) and in-range sampling, at every reachable state the active prefix
`BTilde[0..rTilde)` holds distinct indices in `[0, r)`, and every further
in-range update either reports `Success` with `rTilde` strictly decreased and
the horizon unchanged, or reports `Converged` with the horizon advanced and
`rTilde` reset to `r`.  (The unamended claim — strict decrease for *every* RNG
choice — fails when `rand()` returns `RAND_MAX`; see the counterexample.) -/
theorem perseus_btilde_invariant (p : POMDP) (g0 : List ℚ) (σ : PerseusState)
    (hM : ModelOK p) (hg : g0.length = p.r * p.n)
    (hR : PerseusReachIn p g0 σ) :
    ((btActive σ).Nodup ∧ ∀ x ∈ btActive σ, x < p.r) ∧
    (∀ (idx : ℕ) (bjs : ℕ → ℕ) (aj : List ℚ), idx < σ.rTilde → aj.length = p.n →
      ((perseusUpdate p σ idx bjs aj).1 = .success →
        ((perseusUpdate p σ idx bjs aj).2).rTilde < σ.rTilde ∧
        ((perseusUpdate p σ idx bjs aj).2).currentHorizon = σ.currentHorizon) ∧
      ((perseusUpdate p σ idx bjs aj).1 = .converged →
        ((perseusUpdate p σ idx bjs aj).2).currentHorizon = σ.currentHorizon + 1 ∧
        ((perseusUpdate p σ idx bjs aj).2).rTilde = p.r)) := by
  have hIA : PerseusInvAux p (unpackState σ) := reachIn_inv p g0 σ hM hg hR
  constructor
  · have hbt : btActive σ = (unpackState σ).BT.take (unpackState σ).rT := by
      rw [unpackState_BT, unpackState_rT]
      rfl
    rcases hIA.btSpec with ⟨hfull, _⟩ | hdeg
    · rw [hbt, hfull]
      exact ⟨List.nodup_range p.r, fun x hx => List.mem_range.mp hx⟩
    · rw [hbt, hdeg]
      unfold degradedSet
      refine ⟨List.Nodup.filter _ (List.nodup_range p.r), ?_⟩
      intro x hx
      exact List.mem_range.mp (List.mem_of_mem_filter hx)
  · intro idx bjs aj hidx haj
    rcases (perseusUpdate_preserves p σ idx bjs aj hM hIA hidx haj).2 with
      ⟨h1, h2, h3⟩ | ⟨h1, h2, h3⟩
    · refine ⟨fun _ => ⟨h2, h3⟩, fun hs => ?_⟩
      rw [h1] at hs
      exact NovaResult.noConfusion hs
    · refine ⟨fun hs => ?_, fun _ => ⟨h2, h3⟩⟩
      rw [h1] at hs
      exact NovaResult.noConfusion hs

/-- Witness for `perseus_btilde_invariant` at the initialized `exM` state. -/
theorem perseus_btilde_invariant_witness :
    (btActive (perseusInit exM exG0).2).Nodup ∧
    ∀ x ∈ btActive (perseusInit exM exG0).2, x < exM.r :=
  (perseus_btilde_invariant exM exG0 (perseusInit exM exG0).2
    (by unfold ModelOK; decide) (by decide) PerseusReachIn.init).1

/-- C3, amended: under the input contract and in-range sampling both pool
counts stay at most `r` at every reachable state; and an update entered with a
destination count of at least `r` (reachable only through out-of-range
sampling, see the counterexample) reports `OutOfMemory` — but only after the
append has already pushed the destination count to one more than it was. -/
theorem perseus_pool_bound :
    (∀ (p : POMDP) (g0 : List ℚ) (σ : PerseusState), ModelOK p →
      g0.length = p.r * p.n → PerseusReachIn p g0 σ →
      σ.rGamma ≤ p.r ∧ σ.rGammaPrime ≤ p.r) ∧
    (∀ (p : POMDP) (σ : PerseusState) (idx : ℕ) (bjs : ℕ → ℕ) (aj : List ℚ),
      p.r ≤ perseusDestCount σ →
      (perseusUpdate p σ idx bjs aj).1 = .outOfMemory ∧
      perseusDestCount ((perseusUpdate p σ idx bjs aj).2) =
        perseusDestCount σ + 1) := by
  constructor
  · intro p g0 σ hM hg hR
    have hIA : PerseusInvAux p (unpackState σ) := reachIn_inv p g0 σ hM hg hR
    have hsrc := hIA.srcLe
    have hdst := hIA.dstLe
    by_cases h : σ.currentHorizon % 2 = 0
    · rw [unpackState_even σ h] at hsrc hdst
      dsimp only at hsrc hdst
      omega
    · rw [unpackState_odd σ h] at hsrc hdst
      dsimp only at hsrc hdst
      omega
  · intro p σ idx bjs aj hfull
    have hdc : perseusDestCount σ = (unpackState σ).rGd := by
      unfold perseusDestCount
      by_cases h : σ.currentHorizon % 2 = 0
      · rw [if_pos h, unpackState_even σ h]
      · rw [if_neg h, unpackState_odd σ h]
    have hoom : p.r < (unpackState σ).rGd + 1 := by omega
    have haux : perseusUpdateAux p (unpackState σ) idx bjs aj =
        ⟨.outOfMemory,
         listWrite (unpackState σ).Gd ((unpackState σ).rGd * p.n)
           (auxNewRow p (unpackState σ) idx bjs aj),
         (unpackState σ).rGd + 1,
         listWrite (unpackState σ).piD (unpackState σ).rGd
           [auxNewAct p (unpackState σ) idx bjs aj],
         (unpackState σ).rGs, (unpackState σ).BT, (unpackState σ).rT,
         (unpackState σ).hor⟩ := by
      simp only [perseusUpdateAux]
      rw [if_pos hoom]
    have hh : (perseusUpdateAux p (unpackState σ) idx bjs aj).hor =
        σ.currentHorizon := by
      rw [haux]
      exact unpackState_hor σ
    have hrgd : perseusDestCount ((perseusUpdate p σ idx bjs aj).2) =
        (perseusUpdateAux p (unpackState σ) idx bjs aj).rGd := by
      by_cases h : σ.currentHorizon % 2 = 0
      · simp [perseusUpdate, perseusDestCount, h, hh]
      · simp [perseusUpdate, perseusDestCount, h, hh]
    constructor
    · rw [perseusUpdate_res, haux]
    · rw [hrgd, haux]
      dsimp only
      rw [hdc]

/-- Witness for `perseus_pool_bound`: the bound at the initialized `exM`
state, and the out-of-memory report of the fourth update of the `exM` run
(whose third update was driven by `rand() = RAND_MAX` into a full pool). -/
theorem perseus_pool_bound_witness :
    ((perseusInit exM exG0).2.rGamma ≤ exM.r ∧
     (perseusInit exM exG0).2.rGammaPrime ≤ exM.r) ∧
    ((perseusUpdate exM (exStep 3) 0 (fun _ => 0) [0, 0]).1 = .outOfMemory ∧
     perseusDestCount ((perseusUpdate exM (exStep 3) 0 (fun _ => 0) [0, 0]).2) =
       perseusDestCount (exStep 3) + 1) :=
  ⟨perseus_pool_bound.1 exM exG0 (perseusInit exM exG0).2
     (by unfold ModelOK; decide) (by decide) PerseusReachIn.init,
   perseus_pool_bound.2 exM (exStep 3) 0 (fun _ => 0) [0, 0] (by decide)⟩

/-! ## Claim C6: get_policy shape and buffer selection -/

/-- C6: with a null policy handle, `pomdp_perseus_get_policy_cpu` returns
`Success` and a policy whose `n`/`m` match the model, with count, pool and
action buffers copied from the side selected by `currentHorizon % 2` (`Gamma`,
`rGamma`, `pi` when even, the prime side otherwise); and on every reachable
state of an in-range-sampled run satisfying the input contract the returned
count is at most the model's `r`. -/
theorem perseus_get_policy_shape :
    (∀ (p : POMDP) (σ : PerseusState),
      (perseusGetPolicy p σ none).1 = .success ∧
      ∃ pol, (perseusGetPolicy p σ none).2 = some pol ∧
        pol.n = p.n ∧ pol.m = p.m ∧
        (σ.currentHorizon % 2 = 0 →
          pol.r = σ.rGamma ∧
          pol.Gamma = (σ.Gamma.getD []).take (σ.rGamma * p.n) ∧
          pol.pi = (σ.pi.getD []).take σ.rGamma) ∧
        (¬ σ.currentHorizon % 2 = 0 →
          pol.r = σ.rGammaPrime ∧
          pol.Gamma = (σ.GammaPrime.getD []).take (σ.rGammaPrime * p.n) ∧
          pol.pi = (σ.piPrime.getD []).take σ.rGammaPrime)) ∧
    (∀ (p : POMDP) (g0 : List ℚ) (σ : PerseusState), ModelOK p →
      g0.length = p.r * p.n → PerseusReachIn p g0 σ →
      ∀ pol, (perseusGetPolicy p σ none).2 = some pol → pol.r ≤ p.r) := by
  constructor
  · intro p σ
    by_cases h : σ.currentHorizon % 2 = 0
    · exact ⟨by simp [perseusGetPolicy, h],
        ⟨p.n, p.m, σ.rGamma, (σ.Gamma.getD []).take (σ.rGamma * p.n),
          (σ.pi.getD []).take σ.rGamma⟩,
        by simp [perseusGetPolicy, h], rfl, rfl,
        fun _ => ⟨rfl, rfl, rfl⟩, fun hc => absurd h hc⟩
    · exact ⟨by simp [perseusGetPolicy, h],
        ⟨p.n, p.m, σ.rGammaPrime,
          (σ.GammaPrime.getD []).take (σ.rGammaPrime * p.n),
          (σ.piPrime.getD []).take σ.rGammaPrime⟩,
        by simp [perseusGetPolicy, h], rfl, rfl,
        fun he => absurd he h, fun _ => ⟨rfl, rfl, rfl⟩⟩
  · intro p g0 σ hM hg hR pol hpol
    have hIA : PerseusInvAux p (unpackState σ) := reachIn_inv p g0 σ hM hg hR
    have hsrc := hIA.srcLe
    by_cases h : σ.currentHorizon % 2 = 0
    · rw [unpackState_even σ h] at hsrc
      dsimp only at hsrc
      simp [perseusGetPolicy, h] at hpol
      rw [← hpol]
      exact hsrc
    · rw [unpackState_odd σ h] at hsrc
      dsimp only at hsrc
      simp [perseusGetPolicy, h] at hpol
      rw [← hpol]
      exact hsrc

/-- Witness for `perseus_get_policy_shape` at the initialized `exM` state. -/
theorem perseus_get_policy_shape_witness :
    (perseusGetPolicy exM (perseusInit exM exG0).2 none).1 = .success ∧
    ((perseusGetPolicy exM (perseusInit exM exG0).2 none).2.getD
        ⟨0, 0, 0, [], []⟩).r ≤ exM.r :=
  ⟨(perseus_get_policy_shape.1 exM (perseusInit exM exG0).2).1,
   perseus_get_policy_shape.2 exM exG0 (perseusInit exM exG0).2
     (by unfold ModelOK; decide) (by decide) PerseusReachIn.init
     ((perseusGetPolicy exM (perseusInit exM exG0).2 none).2.getD
       ⟨0, 0, 0, [], []⟩) (by decide)⟩

/-! ## Claim C4: the error paths of execute and the scratch buffers -/

lemma perseusGetPolicy_none_success (p : POMDP) (σ : PerseusState) :
    (perseusGetPolicy p σ none).1 = .success := by
  by_cases h : σ.currentHorizon % 2 = 0 <;> simp [perseusGetPolicy, h]

lemma perseusUpdate_alloc (p : POMDP) (σ : PerseusState) (idx : ℕ) (bjs : ℕ → ℕ)
    (aj : List ℚ) (h : scratchAllocated σ) :
    scratchAllocated ((perseusUpdate p σ idx bjs aj).2) := by
  obtain ⟨h1, h2, h3, h4, h5⟩ := h
  by_cases hev : σ.currentHorizon % 2 = 0
  · exact ⟨by simp [perseusUpdate, hev, h1], by simp [perseusUpdate, hev],
      by simp [perseusUpdate, hev, h3], by simp [perseusUpdate, hev],
      by simp [perseusUpdate, hev]⟩
  · exact ⟨by simp [perseusUpdate, hev], by simp [perseusUpdate, hev, h2],
      by simp [perseusUpdate, hev], by simp [perseusUpdate, hev, h4],
      by simp [perseusUpdate, hev]⟩

lemma initialize_alloc (p : POMDP) (g0 : List ℚ) :
    scratchAllocated (perseusInit p g0).2 :=
  ⟨rfl, rfl, rfl, rfl, rfl⟩

lemma perseusExecLoop_error_alloc (p : POMDP) (rand : ℕ → ℕ) (bjs : ℕ → ℕ → ℕ)
    (aj : ℕ → List ℚ) :
    ∀ (fuel t : ℕ) (σ σ2 : PerseusState) (res : NovaResult),
      scratchAllocated σ →
      perseusExecLoop p rand bjs aj fuel t σ = (some res, σ2) →
      ¬ res = .success → scratchAllocated σ2 := by
  intro fuel
  induction fuel with
  | zero =>
    intro t σ σ2 res _ heq _
    simp only [perseusExecLoop] at heq
    simp at heq
  | succ fuel ih =>
    intro t σ σ2 res hA heq hres
    simp only [perseusExecLoop] at heq
    split at heq
    · split at heq
      · exact ih (t + 1) _ σ2 res (perseusUpdate_alloc p σ _ _ _ hA) heq hres
      · rw [Prod.mk.injEq] at heq
        rw [← heq.2]
        exact perseusUpdate_alloc p σ _ _ _ hA
    · rw [Prod.mk.injEq] at heq
      exact absurd (Option.some.inj heq.1).symm hres

/-- C4, amended: when the update loop inside `pomdp_perseus_execute_cpu` ends
with a terminal error status, execute returns that status directly WITHOUT
calling `pomdp_perseus_uninitialize_cpu`: all five scratch buffers remain
allocated in the returned state.  (The unamended claim — cleanup before
returning the error — is refuted by the counterexample run.) -/
theorem perseus_execute_no_cleanup (p : POMDP) (g0 : List ℚ)
    (policyIn : Option POMDPAlphaVectors) (σin : PerseusState) (rand : ℕ → ℕ)
    (bjs : ℕ → ℕ → ℕ) (aj : ℕ → List ℚ) (fuel : ℕ) (res : NovaResult)
    (σfin : PerseusState) (polOut : Option POMDPAlphaVectors)
    (hv : perseusValidArgs p policyIn = true)
    (heq : perseusExecute p g0 policyIn σin rand bjs aj fuel =
      (some res, σfin, polOut))
    (hres : ¬ res = .success) : scratchAllocated σfin := by
  have hpn : policyIn = none := by
    simp [perseusValidArgs] at hv
    exact hv.2
  subst hpn
  simp only [perseusExecute] at heq
  rw [if_pos hv] at heq
  rcases hlp : perseusExecLoop p rand bjs aj fuel 0 (perseusInit p g0).2 with
    ⟨o, σ2⟩
  rw [hlp] at heq
  cases o with
  | none => simp at heq
  | some r =>
    dsimp only at heq
    by_cases hr : r = .success
    · subst hr
      rw [if_pos rfl] at heq
      rw [if_pos (perseusGetPolicy_none_success p σ2)] at heq
      rw [if_pos (show (perseusUninit σ2).1 = .success from rfl)] at heq
      rw [Prod.mk.injEq] at heq
      exact absurd (Option.some.inj heq.1).symm hres
    · rw [if_neg hr] at heq
      rw [Prod.mk.injEq, Prod.mk.injEq] at heq
      rw [← heq.2.1]
      exact perseusExecLoop_error_alloc p rand bjs aj fuel 0
        (perseusInit p g0).2 σ2 r (initialize_alloc p g0) hlp hr

/-- Witness for `perseus_execute_no_cleanup`: the `OutOfMemory` run of
`pomdp_perseus_execute_cpu` on `exM` leaves all five scratch buffers
allocated. -/
theorem perseus_execute_no_cleanup_witness :
    perseusValidArgs exM none = true ∧
    ¬ NovaResult.outOfMemory = NovaResult.success ∧
    scratchAllocated ((perseusExecute exM exG0 none blankState exRand
      (fun _ _ => 0) (fun _ => [0, 0]) 10).2.1) :=
  ⟨by decide, by decide,
   perseus_execute_no_cleanup exM exG0 none blankState exRand (fun _ _ => 0)
     (fun _ => [0, 0]) 10 .outOfMemory
     ((perseusExecute exM exG0 none blankState exRand (fun _ _ => 0)
       (fun _ => [0, 0]) 10).2.1)
     ((perseusExecute exM exG0 none blankState exRand (fun _ _ => 0)
       (fun _ => [0, 0]) 10).2.2)
     (by decide)
     (by
       have h1 : (perseusExecute exM exG0 none blankState exRand (fun _ _ => 0)
           (fun _ => [0, 0]) 10).1 = some NovaResult.outOfMemory := by decide
       rw [← h1])
     (by decide)⟩

end Nova
